import Mathlib

/-!
Verification development for the osdb storage core (pages.hpp).

The development shallowly embeds the slotted-page record store and the
page manager of pages.hpp at the instantiation used throughout the
repository's spec scenarios and tests: pid_type is an 8-bit unsigned
integer (sizeof = 1) and size_type is a 64-bit unsigned integer
(sizeof = 8).  Memory is a byte store (Nat to Nat); multi-byte values
are read and written little-endian exactly as the memcpy-based
read_value / write_value helpers do.
-/

namespace osdb

/-- The error enumeration of pages.hpp (error::None, error::Some). -/
inductive error where
  | None
  | Some
deriving DecidableEq

deriving instance DecidableEq for Except

/-- sizeof(size_type) for size_type = uint64_t. -/
def szSize : Nat := 8

/-- sizeof(pid_type) for pid_type = uint8_t. -/
def szPid : Nat := 1

/-- sizeof(page_footer): records and freeSpace are size_type,
prev_page and next_page are pid_type, packed. -/
def footerSize : Nat := 2 * szSize + 2 * szPid

/-- A byte store: contents of memory at each address. -/
abbrev Store := Nat → Nat

/-- Little-endian read of a k-byte unsigned value at address a
(read_value in pages.hpp). -/
def leRead (m : Store) (a : Nat) : Nat → Nat
  | 0 => 0
  | k + 1 => m a + 256 * leRead m (a + 1) k

/-- Little-endian write of a k-byte unsigned value at address a
(write_value in pages.hpp): byte i of the value v is v / 256^i % 256. -/
def leWrite (m : Store) (a k v : Nat) : Store :=
  fun x => if a ≤ x ∧ x < a + k then v / 256 ^ (x - a) % 256 else m x

/-- memcpy of a caller buffer into the store at address a. -/
def writeBytes (m : Store) (a : Nat) (bs : List Nat) : Store :=
  fun x => if a ≤ x ∧ x < a + bs.length then bs.getD (x - a) 0 else m x

/-- memcpy of n bytes out of the store into a caller buffer. -/
def readBytes (m : Store) (a : Nat) : Nat → List Nat
  | 0 => []
  | k + 1 => m a :: readBytes m (a + 1) k

/-- memset(ptr, 0, n). -/
def zeroFill (m : Store) (a n : Nat) : Store :=
  fun x => if a ≤ x ∧ x < a + n then 0 else m x

/-- Overwrite n bytes at base with page-local contents f (the effect of a
Block Provider read_page call filling a frame). -/
def blit (m : Store) (base : Nat) (f : Store) (n : Nat) : Store :=
  fun x => if base ≤ x ∧ x < base + n then f (x - base) else m x

/-- The page_footer struct: records, freeSpace (size_type), prev_page,
next_page (pid_type), in declaration order, packed. -/
structure page_footer where
  records : Nat
  freeSpace : Nat
  prev_page : Nat
  next_page : Nat
deriving DecidableEq

/-- record_index as in pages.hpp; equality is bytewise, i.e. fieldwise. -/
structure record_index where
  pageid : Nat
  slot_index : Nat
  offset : Nat
  size : Nat
deriving DecidableEq

/-- The fields of a pinned_page handle a caller can observe: page id, the
frame pointer (as an offset into the pool), the page size and the dirty
flag. -/
structure pinned_page where
  pageID : Nat
  base : Nat
  size : Nat
  dirty : Bool
deriving DecidableEq

/-- Read a page_footer at address a: fields at offsets 0, szSize,
2*szSize, 2*szSize + szPid. -/
def readFooter (m : Store) (a : Nat) : page_footer :=
  ⟨leRead m a szSize, leRead m (a + szSize) szSize,
   leRead m (a + 2 * szSize) szPid, leRead m (a + 2 * szSize + szPid) szPid⟩

/-- Write a page_footer at address a. -/
def writeFooter (m : Store) (a : Nat) (f : page_footer) : Store :=
  leWrite (leWrite (leWrite (leWrite m a szSize f.records)
    (a + szSize) szSize f.freeSpace)
    (a + 2 * szSize) szPid f.prev_page)
    (a + 2 * szSize + szPid) szPid f.next_page

/-- The slot-directory walk of get_record (pages.hpp lines 498-504):
starting at address a and stepping upward, sum r size fields.  Each
addition is size_type arithmetic, i.e. modulo 256^szSize. -/
def slotWalkUp (m : Store) (a : Nat) : Nat → Nat
  | 0 => 0
  | r + 1 => (leRead m a szSize + slotWalkUp m (a + szSize) r) % 256 ^ szSize

/-- The slot-directory walk of the slot-index overload of read_record
(pages.hpp lines 629-635): starting at address a and stepping downward,
sum r size fields, modulo 256^szSize. -/
def slotWalkDown (m : Store) (a : Nat) : Nat → Nat
  | 0 => 0
  | r + 1 => (leRead m a szSize + slotWalkDown m (a - szSize) r) % 256 ^ szSize

/-- get_record (pages.hpp lines 487-507).  Reads the footer at the end of
the pinned page, rejects slot indices at or past records, then walks the
slot directory upward from its lowest address (footerStart minus
szSize * records) summing sizes, and reads the size where the walk
stops. -/
def get_record (m : Store) (page : pinned_page) (recordIndex : Nat) :
    Except error record_index :=
  let footerStart := page.base + page.size - footerSize
  let pageFooter := readFooter m footerStart
  if pageFooter.records ≤ recordIndex then .error .Some
  else
    let slotBase := footerStart - szSize * pageFooter.records
    let offset := slotWalkUp m slotBase recordIndex
    let size := leRead m (slotBase + szSize * recordIndex) szSize
    .ok ⟨page.pageID, recordIndex, offset, size⟩

/-- The record_index overload of read_record (pages.hpp lines 602-614):
reject a handle for another page, otherwise copy
min(bufferSize, record.size) bytes from offset record.offset into the
caller's buffer (returned as the second component). -/
def read_record (m : Store) (page : pinned_page) (record : record_index)
    (bufferSize : Nat) : error × List Nat :=
  if record.pageid ≠ page.pageID then (.Some, [])
  else (.None, readBytes m (page.base + record.offset) (min bufferSize record.size))

/-- The slot-index overload of read_record (pages.hpp lines 616-644).
Rejects slot indices at or past records, then walks the slot directory
downward starting immediately below the footer, reads the size where the
walk stops, and copies min(size, bufferSize) bytes from the computed
offset. -/
def read_record_slot (m : Store) (page : pinned_page) (recordIndex : Nat)
    (bufferSize : Nat) : Except error (record_index × List Nat) :=
  let footerStart := page.base + page.size - footerSize
  let pageFooter := readFooter m footerStart
  if pageFooter.records ≤ recordIndex then .error .Some
  else
    let offset := slotWalkDown m (footerStart - szSize) recordIndex
    let size := leRead m (footerStart - szSize - szSize * recordIndex) szSize
    .ok (⟨page.pageID, recordIndex, offset, size⟩,
      readBytes m (page.base + offset) (min size bufferSize))

/-- The in-page write step of add_record (pages.hpp lines 578-598, the
branch taken when freeSpace is at least recordSize + sizeof(size_type)):
copy the record bytes to dataStart (the slot directory start minus
freeSpace), write the record size immediately below the slot directory,
then write back the footer with records incremented and freeSpace reduced
by recordSize + sizeof(size_type).  Returns the new store and the
record_index handed back to the caller. -/
def addRecordOnPage (m : Store) (page : pinned_page) (pageid : Nat)
    (data : List Nat) (recordSize : Nat) : Store × record_index :=
  let footerStart := page.base + page.size - footerSize
  let pageFooter := readFooter m footerStart
  let sizeStart := footerStart - szSize * pageFooter.records
  let dataStart := sizeStart - pageFooter.freeSpace
  let m1 := writeBytes m dataStart (data.take recordSize)
  let m2 := leWrite m1 (sizeStart - szSize) szSize recordSize
  let m3 := writeFooter m2 footerStart
    { pageFooter with
      records := pageFooter.records + 1
      freeSpace := pageFooter.freeSpace - (recordSize + szSize) }
  (m3, ⟨pageid, pageFooter.records + 1 - 1, dataStart - page.base, recordSize⟩)

/-- Page initialisation done by new_pinned_page (pages.hpp lines 358-366):
zero the frame, then write the initial footer
(0 records, pageSize - sizeof(footer) free, null prev and next). -/
def initPage (m : Store) (base n : Nat) : Store :=
  writeFooter (zeroFill m base n) (base + n - footerSize) ⟨0, n - footerSize, 0, 0⟩

/-- A page obtained from new_pinned_page followed by one successful
in-page add_record per element of rs (record contents in insertion
order). -/
def buildPage (m : Store) (base n pid : Nat) (rs : List (List Nat)) : Store :=
  rs.foldl (fun acc b => (addRecordOnPage acc ⟨pid, base, n, true⟩ pid b b.length).1)
    (initPage m base n)

/-! ## The page manager (pages.hpp lines 229-464) -/

/-- A directory entry of the page manager: dirty flag, logical page id,
pool frame index and pin count (pages.hpp lines 239-245).  All fields
default to zero / false. -/
structure directory_entry where
  dirty : Bool
  page : Nat
  poolIndex : Nat
  pinCount : Nat
deriving DecidableEq

/-- Observable Block Provider callback invocations, in call order. -/
inductive io_event where
  | readEv (page : Nat)
  | writeEv (page : Nat)
  | allocEv
  | freeEv (page : Nat)
deriving DecidableEq

/-- The Block Provider callbacks (page_interface).  read_page receives
the current frame contents (page-local) and returns its status together
with the frame contents after the call; write_page sees the frame
contents and returns a status; alloc_page returns a fresh page id or an
error; free_page is never invoked by the core. -/
structure page_interface where
  read_page : Nat → Store → error × Store
  write_page : Nat → Store → error
  alloc_page : Nat → Except error Nat
  free_page : Nat → error

/-- The page manager state: page size, the pool byte buffer and the
directory.  The callback interface is passed separately to each
operation. -/
structure page_manager where
  pageSize : Nat
  pool : Store
  directory : List directory_entry

/-- The frame of pool index pi, as a page-local byte function
(the pointer pool + pageSize * poolIndex). -/
def frameFn (pool : Store) (pageSize pi : Nat) : Store :=
  fun o => pool (pageSize * pi + o)

/-- page_manager construction (pages.hpp lines 256-263): poolSize empty
directory entries with poolIndex = i.  The pool contents are the
uninitialised allocation m0. -/
def mkManager (poolSize pageSize : Nat) (m0 : Store) : page_manager :=
  ⟨pageSize, m0, (List.range poolSize).map fun i => ⟨false, 0, i, 0⟩⟩

/-- page_data_size() (pages.hpp lines 286-288). -/
def page_data_size (s : page_manager) : Nat := s.pageSize - footerSize

/-- The directory scan of pin_page (pages.hpp lines 293-299): find the
first entry whose page matches, increment its pin count, and hand back
its pool index. -/
def scanPin (page : Nat) : List directory_entry →
    Option (List directory_entry × Nat)
  | [] => none
  | e :: rest =>
    if e.page = page then
      some ({ e with pinCount := e.pinCount + 1 } :: rest, e.poolIndex)
    else
      match scanPin page rest with
      | some (rest2, pi) => some (e :: rest2, pi)
      | none => none

/-- unpin_page (pages.hpp lines 374-389): on the first entry whose page
matches, or the dirty flag in and decrement a non-zero pin count. -/
def unpinScan (page : Nat) (dirty : Bool) : List directory_entry →
    List directory_entry
  | [] => []
  | e :: rest =>
    if e.page = page then
      { e with dirty := dirty || e.dirty, pinCount := e.pinCount - 1 } :: rest
    else e :: unpinScan page dirty rest

/-- The effect of dropping a pinned_page handle (pages.hpp lines 446-450):
when the id is non-zero, call unpin_page with the handle's dirty flag. -/
def dropHandle (s : page_manager) (h : pinned_page) : page_manager :=
  if h.pageID ≠ 0 then { s with directory := unpinScan h.pageID h.dirty s.directory }
  else s

/-- The scan of make_dir_entry (pages.hpp lines 391-419) over the
directory list: find the first entry with pin count zero, write it back
first if dirty (propagating a write failure with the directory
unchanged), reserve it by setting its pin count to one, and return its
index together with the updated directory.  An exhausted scan returns
unexpected of error with a default-constructed error, i.e. error::None
(pages.hpp line 417). -/
def mkde (P : page_interface) (pageSize : Nat) (pool : Store) :
    List directory_entry →
    Except error (Nat × List directory_entry) × List io_event
  | [] => (.error .None, [])
  | e :: rest =>
    if e.pinCount = 0 then
      if e.dirty = true then
        let w := P.write_page e.page (frameFn pool pageSize e.poolIndex)
        if w ≠ error.None then (.error w, [.writeEv e.page])
        else (.ok (0, { e with dirty := false, pinCount := 1 } :: rest),
          [.writeEv e.page])
      else (.ok (0, { e with pinCount := 1 } :: rest), [])
    else
      match mkde P pageSize pool rest with
      | (.ok (i, rest2), tr) => (.ok (i + 1, e :: rest2), tr)
      | (.error err, tr) => (.error err, tr)

/-- make_dir_entry on the manager state. -/
def makeDirEntry (P : page_interface) (s : page_manager) :
    Except error Nat × page_manager × List io_event :=
  match mkde P s.pageSize s.pool s.directory with
  | (.ok (i, dir2), tr) => (.ok i, { s with directory := dir2 }, tr)
  | (.error e, tr) => (.error e, s, tr)

/-- Rotate the directory entry at index i to the end, keeping the
relative order of the others (std::rotate(begin + i, begin + i + 1,
end)). -/
def rotateToEnd (l : List directory_entry) (i : Nat) : List directory_entry :=
  l.take i ++ l.drop (i + 1) ++ (l.drop i).take 1

/-- load_page (pages.hpp lines 421-443): reserve a directory slot via
make_dir_entry, stamp it with the requested page id and pin count one,
read from the Block Provider into the corresponding frame, and on
success rotate the loaded entry to the end of the directory.  The
returned value is the index i produced by make_dir_entry (even though
the rotation has moved the loaded entry away from index i). -/
def loadPage (P : page_interface) (s : page_manager) (page : Nat) :
    Except error Nat × page_manager × List io_event :=
  match makeDirEntry P s with
  | (.error e, s1, tr) => (.error e, s1, tr)
  | (.ok i, s1, tr) =>
    let e0 := s1.directory.getD i ⟨false, 0, 0, 0⟩
    let dir2 := s1.directory.set i { e0 with page := page, pinCount := 1 }
    let (err, bytes) := P.read_page page (frameFn s1.pool s.pageSize e0.poolIndex)
    let pool2 := blit s1.pool (s.pageSize * e0.poolIndex) bytes s.pageSize
    if err = error.None then
      (.ok i, { s1 with directory := rotateToEnd dir2 i, pool := pool2 },
        tr ++ [.readEv page])
    else
      (.error err, { s1 with directory := dir2, pool := pool2 },
        tr ++ [.readEv page])

/-- pin_page (pages.hpp lines 290-306): on a directory hit, increment the
pin count and return a handle onto that entry's frame; on a miss, call
load_page and build the handle from directory[i].poolIndex, where i is
the index load_page returned (read after the rotation). -/
def pinPage (P : page_interface) (s : page_manager) (page : Nat) :
    Except error pinned_page × page_manager × List io_event :=
  match scanPin page s.directory with
  | some (dir2, pi) =>
    (.ok ⟨page, s.pageSize * pi, s.pageSize, false⟩,
      { s with directory := dir2 }, [])
  | none =>
    match loadPage P s page with
    | (.error e, s1, tr) => (.error e, s1, tr)
    | (.ok i, s1, tr) =>
      let pi := (s1.directory.getD i ⟨false, 0, 0, 0⟩).poolIndex
      (.ok ⟨page, s.pageSize * pi, s.pageSize, false⟩, s1, tr)

/-- The scan of flush_page (pages.hpp lines 308-323): on the first entry
matching the page id that is unpinned and dirty, call write_page and
clear the dirty flag exactly when the call returned a non-None error
(the inverted condition of pages.hpp line 318), returning the write
status; when no entry matches, return error::Some. -/
def flushScan (P : page_interface) (pageSize : Nat) (pool : Store)
    (page : Nat) : List directory_entry →
    error × List directory_entry × List io_event
  | [] => (.Some, [], [])
  | e :: rest =>
    if e.page = page ∧ e.pinCount = 0 ∧ e.dirty = true then
      let w := P.write_page e.page (frameFn pool pageSize e.poolIndex)
      (w, (if w ≠ error.None then { e with dirty := false } else e) :: rest,
        [.writeEv e.page])
    else
      let r := flushScan P pageSize pool page rest
      (r.1, e :: r.2.1, r.2.2)

/-- flush_page on the manager state. -/
def flushPage (P : page_interface) (s : page_manager) (page : Nat) :
    error × page_manager × List io_event :=
  let r := flushScan P s.pageSize s.pool page s.directory
  (r.1, { s with directory := r.2.1 }, r.2.2)

/-- The scan of flush_free_pages (pages.hpp lines 325-339): for every
unpinned dirty entry call write_page; return the first non-None status
leaving that entry and all later ones untouched; clear the dirty flag of
each entry whose write succeeded. -/
def ffpScan (P : page_interface) (pageSize : Nat) (pool : Store) :
    List directory_entry → error × List directory_entry × List io_event
  | [] => (.None, [], [])
  | e :: rest =>
    if e.pinCount = 0 ∧ e.dirty = true then
      let w := P.write_page e.page (frameFn pool pageSize e.poolIndex)
      if w ≠ error.None then (w, e :: rest, [.writeEv e.page])
      else
        let r := ffpScan P pageSize pool rest
        (r.1, { e with dirty := false } :: r.2.1, .writeEv e.page :: r.2.2)
    else
      let r := ffpScan P pageSize pool rest
      (r.1, e :: r.2.1, r.2.2)

/-- flush_free_pages on the manager state. -/
def flushFreePages (P : page_interface) (s : page_manager) :
    error × page_manager × List io_event :=
  let r := ffpScan P s.pageSize s.pool s.directory
  (r.1, { s with directory := r.2.1 }, r.2.2)

/-- new_pinned_page (pages.hpp lines 341-371): reserve a directory slot,
remember its pool index, allocate a fresh page id (leaving the slot
reserved on allocation failure), stamp the entry, zero the frame, rotate
the entry to the end, write the initial footer at the remembered pool
index, and return a handle already marked dirty. -/
def newPinnedPage (P : page_interface) (s : page_manager) :
    Except error pinned_page × page_manager × List io_event :=
  match makeDirEntry P s with
  | (.error e, s1, tr) => (.error e, s1, tr)
  | (.ok i, s1, tr) =>
    let e0 := s1.directory.getD i ⟨false, 0, 0, 0⟩
    match P.alloc_page s.pageSize with
    | .error e => (.error e, s1, tr ++ [.allocEv])
    | .ok pid =>
      let dir2 := s1.directory.set i
        { e0 with page := pid, pinCount := 1, dirty := true }
      let pool2 := zeroFill s1.pool (s.pageSize * e0.poolIndex) s.pageSize
      let pool3 := writeFooter pool2
        (s.pageSize * (e0.poolIndex + 1) - footerSize)
        ⟨0, s.pageSize - footerSize, 0, 0⟩
      (.ok ⟨pid, s.pageSize * e0.poolIndex, s.pageSize, true⟩,
        { s with directory := rotateToEnd dir2 i, pool := pool3 },
        tr ++ [.allocEv])

/-- The loop of add_record (pages.hpp lines 544-599), fuel-bounded.  The
current handle page is dropped (running the pinned_page destructor)
exactly where the corresponding C++ scope ends; in the chain-growing
branch the C++ marks the moved-from handle dirty (line 563), so the
current page handle is dropped with its original dirty flag. -/
def addRecordLoop (P : page_interface) (data : List Nat) (recordSize : Nat) :
    Nat → page_manager → pinned_page → Nat → List io_event →
    Option (Except error record_index × page_manager × List io_event)
  | 0, _, _, _, _ => none
  | fuel + 1, s, page, pageid, acc =>
    let footerStart := page.base + page.size - footerSize
    let pageFooter := readFooter s.pool footerStart
    if pageFooter.freeSpace < recordSize + szSize then
      if pageFooter.next_page = 0 then
        match newPinnedPage P s with
        | (.error e, s1, tr1) => some (.error e, dropHandle s1 page, acc ++ tr1)
        | (.ok newPg, s1, tr1) =>
          let pool2 := writeFooter s1.pool footerStart
            { pageFooter with next_page := newPg.pageID }
          let s2 := dropHandle { s1 with pool := pool2 } page
          addRecordLoop P data recordSize fuel s2 newPg newPg.pageID (acc ++ tr1)
      else
        match pinPage P s pageFooter.next_page with
        | (.error e, s1, tr1) => some (.error e, dropHandle s1 page, acc ++ tr1)
        | (.ok nextPg, s1, tr1) =>
          let s2 := dropHandle s1 page
          addRecordLoop P data recordSize fuel s2 nextPg pageFooter.next_page
            (acc ++ tr1)
    else
      let r := addRecordOnPage s.pool page pageid data recordSize
      let s1 := dropHandle { s with pool := r.1 } { page with dirty := true }
      some (.ok r.2, s1, acc)

/-- add_record (pages.hpp lines 529-600): reject records with
recordSize + sizeof(size_type) exceeding page_data_size before touching
any page, pin the initial page, then run the chain loop. -/
def add_record (P : page_interface) (s : page_manager) (pageid : Nat)
    (data : List Nat) (recordSize : Nat) (fuel : Nat) :
    Option (Except error record_index × page_manager × List io_event) :=
  if page_data_size s - szSize < recordSize then some (.error .Some, s, [])
  else
    match pinPage P s pageid with
    | (.error e, s1, tr) => some (.error e, s1, tr)
    | (.ok page, s1, tr) => addRecordLoop P data recordSize fuel s1 page pageid tr

/-! ## Store lemmas -/

theorem leRead_congr {m1 m2 : Store} {a : Nat} :
    ∀ {k : Nat}, (∀ i, i < k → m1 (a + i) = m2 (a + i)) →
    leRead m1 a k = leRead m2 a k := by
  intro k
  induction k generalizing a with
  | zero => intro _; rfl
  | succ k ih =>
    intro h
    have h0 : m1 a = m2 a := by
      have := h 0 (Nat.succ_pos k)
      simpa using this
    have ht : leRead m1 (a + 1) k = leRead m2 (a + 1) k := by
      apply ih
      intro i hi
      have := h (i + 1) (by omega)
      have e : a + (i + 1) = a + 1 + i := by omega
      rwa [e] at this
    simp [leRead, h0, ht]

theorem leWrite_out {m : Store} {a k v x : Nat}
    (h : x < a ∨ a + k ≤ x) : leWrite m a k v x = m x := by
  unfold leWrite
  rw [if_neg]
  omega

theorem writeBytes_out {m : Store} {a x : Nat} {bs : List Nat}
    (h : x < a ∨ a + bs.length ≤ x) : writeBytes m a bs x = m x := by
  unfold writeBytes
  rw [if_neg]
  omega

theorem writeBytes_in {m : Store} {a i : Nat} {bs : List Nat}
    (h : i < bs.length) : writeBytes m a bs (a + i) = bs.getD i 0 := by
  unfold writeBytes
  rw [if_pos (by omega)]
  congr 1
  omega

theorem zeroFill_out {m : Store} {a n x : Nat}
    (h : x < a ∨ a + n ≤ x) : zeroFill m a n x = m x := by
  unfold zeroFill
  rw [if_neg]
  omega

theorem leRead_leWrite_out {m : Store} {a1 k1 a2 k2 v : Nat}
    (h : a2 + k2 ≤ a1 ∨ a1 + k1 ≤ a2) :
    leRead (leWrite m a2 k2 v) a1 k1 = leRead m a1 k1 := by
  apply leRead_congr
  intro i hi
  exact leWrite_out (by omega)

theorem leRead_writeBytes_out {m : Store} {a1 k1 a2 : Nat} {bs : List Nat}
    (h : a2 + bs.length ≤ a1 ∨ a1 + k1 ≤ a2) :
    leRead (writeBytes m a2 bs) a1 k1 = leRead m a1 k1 := by
  apply leRead_congr
  intro i hi
  exact writeBytes_out (by omega)

theorem digit_split (v k : Nat) :
    v % 256 + 256 * (v / 256 % 256 ^ k) = v % 256 ^ (k + 1) := by
  have hp : (256 : Nat) ^ (k + 1) = 256 * 256 ^ k := by
    rw [pow_succ, Nat.mul_comm]
  have h1 : v / 256 % 256 ^ k = v % (256 * 256 ^ k) / 256 :=
    (Nat.mod_mul_right_div_self v 256 (256 ^ k)).symm
  have h2 : v % 256 = v % (256 * 256 ^ k) % 256 :=
    (Nat.mod_mod_of_dvd v (Dvd.intro (256 ^ k) rfl)).symm
  rw [hp, h1, h2, Nat.mod_add_div]

theorem leWrite_in {m : Store} {a k v x : Nat}
    (h1 : a ≤ x) (h2 : x < a + k) :
    leWrite m a k v x = v / 256 ^ (x - a) % 256 := by
  unfold leWrite
  rw [if_pos ⟨h1, h2⟩]

theorem leRead_leWrite : ∀ {k : Nat} (m : Store) (a v : Nat),
    leRead (leWrite m a k v) a k = v % 256 ^ k := by
  intro k
  induction k with
  | zero => intro m a v; simp [leRead, Nat.mod_one]
  | succ k ih =>
    intro m a v
    have h0 : leWrite m a (k + 1) v a = v % 256 := by
      rw [leWrite_in (Nat.le_refl a) (by omega)]
      simp
    have hc : leRead (leWrite m a (k + 1) v) (a + 1) k
        = leRead (leWrite m (a + 1) k (v / 256)) (a + 1) k := by
      apply leRead_congr
      intro i hi
      rw [leWrite_in (by omega) (by omega), leWrite_in (by omega) (by omega)]
      have e1 : a + 1 + i - a = i + 1 := by omega
      have e2 : a + 1 + i - (a + 1) = i := by omega
      rw [e1, e2, pow_succ', ← Nat.div_div_eq_div_mul]
    have hstep : leRead (leWrite m a (k + 1) v) a (k + 1)
        = leWrite m a (k + 1) v a
          + 256 * leRead (leWrite m a (k + 1) v) (a + 1) k := rfl
    rw [hstep, h0, hc, ih]
    exact digit_split v k

theorem readBytes_congr {m1 m2 : Store} {a : Nat} :
    ∀ {n : Nat}, (∀ i, i < n → m1 (a + i) = m2 (a + i)) →
    readBytes m1 a n = readBytes m2 a n := by
  intro n
  induction n generalizing a with
  | zero => intro _; rfl
  | succ n ih =>
    intro h
    have h0 : m1 a = m2 a := by simpa using h 0 (Nat.succ_pos n)
    have ht : readBytes m1 (a + 1) n = readBytes m2 (a + 1) n := by
      apply ih
      intro i hi
      have := h (i + 1) (by omega)
      have e : a + (i + 1) = a + 1 + i := by omega
      rwa [e] at this
    simp [readBytes, h0, ht]

theorem readBytes_of_pointwise {m : Store} {a : Nat} :
    ∀ {bs : List Nat}, (∀ i, i < bs.length → m (a + i) = bs.getD i 0) →
    readBytes m a bs.length = bs := by
  intro bs
  induction bs generalizing a with
  | nil => intro _; rfl
  | cons b rest ih =>
    intro h
    have h0 : m a = b := by simpa using h 0 (by simp)
    have ht : readBytes m (a + 1) rest.length = rest := by
      apply ih
      intro i hi
      have := h (i + 1) (by simpa using Nat.succ_lt_succ hi)
      have e : a + (i + 1) = a + 1 + i := by omega
      rw [e] at this
      simpa using this
    simp [readBytes, h0, ht]

theorem writeFooter_out {m : Store} {a x : Nat} {f : page_footer}
    (h : x < a ∨ a + footerSize ≤ x) : writeFooter m a f x = m x := by
  unfold writeFooter
  simp only [footerSize, szSize, szPid] at h
  rw [leWrite_out (by simp only [szSize, szPid]; omega),
    leWrite_out (by simp only [szSize, szPid]; omega),
    leWrite_out (by simp only [szSize]; omega),
    leWrite_out (by simp only [szSize]; omega)]

theorem readFooter_congr {m1 m2 : Store} {a : Nat}
    (h : ∀ i, i < footerSize → m1 (a + i) = m2 (a + i)) :
    readFooter m1 a = readFooter m2 a := by
  unfold readFooter
  simp only [footerSize, szSize, szPid] at h
  have r1 : leRead m1 a szSize = leRead m2 a szSize := by
    apply leRead_congr
    intro i hi
    exact h i (by simp only [szSize] at hi ⊢; omega)
  have r2 : leRead m1 (a + szSize) szSize = leRead m2 (a + szSize) szSize := by
    apply leRead_congr
    intro i hi
    have := h (szSize + i) (by simp only [szSize] at hi ⊢; omega)
    have e : a + (szSize + i) = a + szSize + i := by omega
    rwa [e] at this
  have r3 : leRead m1 (a + 2 * szSize) szPid = leRead m2 (a + 2 * szSize) szPid := by
    apply leRead_congr
    intro i hi
    have := h (2 * szSize + i) (by simp only [szSize, szPid] at hi ⊢; omega)
    have e : a + (2 * szSize + i) = a + 2 * szSize + i := by omega
    rwa [e] at this
  have r4 : leRead m1 (a + 2 * szSize + szPid) szPid
      = leRead m2 (a + 2 * szSize + szPid) szPid := by
    apply leRead_congr
    intro i hi
    have := h (2 * szSize + szPid + i) (by simp only [szSize, szPid] at hi ⊢; omega)
    have e : a + (2 * szSize + szPid + i) = a + 2 * szSize + szPid + i := by omega
    rwa [e] at this
  rw [r1, r2, r3, r4]

theorem readFooter_writeFooter {m : Store} {a : Nat} {f : page_footer}
    (h1 : f.records < 256 ^ szSize) (h2 : f.freeSpace < 256 ^ szSize)
    (h3 : f.prev_page < 256 ^ szPid) (h4 : f.next_page < 256 ^ szPid) :
    readFooter (writeFooter m a f) a = f := by
  unfold readFooter writeFooter
  have e1 : leRead (leWrite (leWrite (leWrite (leWrite m a szSize f.records)
      (a + szSize) szSize f.freeSpace) (a + 2 * szSize) szPid f.prev_page)
      (a + 2 * szSize + szPid) szPid f.next_page) a szSize = f.records := by
    rw [leRead_leWrite_out (by simp only [szSize, szPid]; omega),
      leRead_leWrite_out (by simp only [szSize, szPid]; omega),
      leRead_leWrite_out (by simp only [szSize]; omega),
      leRead_leWrite, Nat.mod_eq_of_lt h1]
  have e2 : leRead (leWrite (leWrite (leWrite (leWrite m a szSize f.records)
      (a + szSize) szSize f.freeSpace) (a + 2 * szSize) szPid f.prev_page)
      (a + 2 * szSize + szPid) szPid f.next_page) (a + szSize) szSize
      = f.freeSpace := by
    rw [leRead_leWrite_out (by simp only [szSize, szPid]; omega),
      leRead_leWrite_out (by simp only [szSize, szPid]; omega),
      leRead_leWrite, Nat.mod_eq_of_lt h2]
  have e3 : leRead (leWrite (leWrite (leWrite (leWrite m a szSize f.records)
      (a + szSize) szSize f.freeSpace) (a + 2 * szSize) szPid f.prev_page)
      (a + 2 * szSize + szPid) szPid f.next_page) (a + 2 * szSize) szPid
      = f.prev_page := by
    rw [leRead_leWrite_out (by simp only [szSize, szPid]; omega),
      leRead_leWrite, Nat.mod_eq_of_lt h3]
  have e4 : leRead (leWrite (leWrite (leWrite (leWrite m a szSize f.records)
      (a + szSize) szSize f.freeSpace) (a + 2 * szSize) szPid f.prev_page)
      (a + 2 * szSize + szPid) szPid f.next_page) (a + 2 * szSize + szPid) szPid
      = f.next_page := by
    rw [leRead_leWrite, Nat.mod_eq_of_lt h4]
  rw [e1, e2, e3, e4]

/-! ## Layout of pages produced by new_pinned_page and add_record -/

/-- Total bytes consumed by the records of rs: record bytes plus one
slot-directory size field each. -/
def recCost (rs : List (List Nat)) : Nat :=
  (rs.map (fun b => b.length + szSize)).sum

/-- Total record bytes of rs. -/
def lenSum (rs : List (List Nat)) : Nat := (rs.map List.length).sum

/-- Sum of the first r size fields stored in the slot directory below the
footer at footerStart (slot j's size field lives at
footerStart - szSize * (j + 1)). -/
def slotSum (m : Store) (footerStart : Nat) : Nat → Nat
  | 0 => 0
  | j + 1 => slotSum m footerStart j + leRead m (footerStart - szSize * (j + 1)) szSize

theorem recCost_append (rs : List (List Nat)) (b : List Nat) :
    recCost (rs ++ [b]) = recCost rs + (b.length + szSize) := by
  simp [recCost]

theorem recCost_eq (rs : List (List Nat)) :
    recCost rs = lenSum rs + szSize * rs.length := by
  induction rs with
  | nil => simp [recCost, lenSum]
  | cons b rest ih =>
    simp only [recCost, lenSum, List.map_cons, List.sum_cons, List.length_cons,
      Nat.mul_succ] at *
    omega

theorem lenSum_append (rs : List (List Nat)) (b : List Nat) :
    lenSum (rs ++ [b]) = lenSum rs + b.length := by
  simp [lenSum]

theorem buildPage_append (m0 : Store) (base n pid : Nat)
    (rs : List (List Nat)) (b : List Nat) :
    buildPage m0 base n pid (rs ++ [b]) =
    (addRecordOnPage (buildPage m0 base n pid rs) ⟨pid, base, n, true⟩
      pid b b.length).1 := by
  simp [buildPage, List.foldl_append]

theorem addRecordOnPage_eq (m : Store) (base n pid pid2 : Nat) (d : Bool)
    (b : List Nat) (r C : Nat)
    (hszr : 8 * r ≤ C) (hC : C + b.length + 8 ≤ n - 18)
    (hf : readFooter m (base + n - 18) = ⟨r, n - 18 - C, 0, 0⟩) :
    addRecordOnPage m ⟨pid, base, n, d⟩ pid2 b b.length =
    (writeFooter (leWrite (writeBytes m (base + (C - 8 * r)) b)
        (base + n - 18 - 8 * (r + 1)) 8 b.length)
      (base + n - 18) ⟨r + 1, n - 18 - (C + b.length + 8), 0, 0⟩,
      ⟨pid2, r, C - 8 * r, b.length⟩) := by
  have h8 : szSize = 8 := rfl
  have h18 : footerSize = 18 := rfl
  simp only [addRecordOnPage, h8, h18]
  rw [hf]
  simp only [List.take_length]
  have e1 : base + n - 18 - 8 * r - (n - 18 - C) = base + (C - 8 * r) := by
    omega
  have e2 : base + n - 18 - 8 * r - 8 = base + n - 18 - 8 * (r + 1) := by
    omega
  have e3 : n - 18 - C - (b.length + 8) = n - 18 - (C + b.length + 8) := by
    omega
  rw [e1, e2, e3]
  simp only [Nat.add_sub_cancel, Nat.add_sub_cancel_left]

theorem addRecordOnPage_step (m : Store) (base n pid pid2 : Nat) (d : Bool)
    (b : List Nat) (r C : Nat)
    (hb : n < 256 ^ szSize)
    (hszr : 8 * r ≤ C) (hC : C + b.length + 8 ≤ n - 18)
    (hf : readFooter m (base + n - 18) = ⟨r, n - 18 - C, 0, 0⟩) :
    readFooter (addRecordOnPage m ⟨pid, base, n, d⟩ pid2 b b.length).1
      (base + n - 18)
      = ⟨r + 1, n - 18 - (C + b.length + 8), 0, 0⟩ ∧
    (∀ j k, j < r →
      leRead m (base + n - 18 - 8 * (j + 1)) 8 = k →
      leRead (addRecordOnPage m ⟨pid, base, n, d⟩ pid2 b b.length).1
        (base + n - 18 - 8 * (j + 1)) 8 = k) ∧
    leRead (addRecordOnPage m ⟨pid, base, n, d⟩ pid2 b b.length).1
      (base + n - 18 - 8 * (r + 1)) 8 = b.length ∧
    (∀ x, x < base + (C - 8 * r) →
      (addRecordOnPage m ⟨pid, base, n, d⟩ pid2 b b.length).1 x = m x) ∧
    readBytes (addRecordOnPage m ⟨pid, base, n, d⟩ pid2 b b.length).1
      (base + (C - 8 * r)) b.length = b ∧
    (addRecordOnPage m ⟨pid, base, n, d⟩ pid2 b b.length).2
      = ⟨pid2, r, C - 8 * r, b.length⟩ := by
  have h8 : szSize = 8 := rfl
  have h18 : footerSize = 18 := rfl
  rw [h8] at hb
  rw [addRecordOnPage_eq m base n pid pid2 d b r C hszr hC hf]
  dsimp only
  refine ⟨?_, ?_, ?_, ?_, ?_, rfl⟩
  · show readFooter (writeFooter _ _ _) _ = _
    rw [readFooter_writeFooter]
    · show (r + 1 : Nat) < 256 ^ szSize
      rw [h8]
      omega
    · show n - 18 - (C + b.length + 8) < 256 ^ szSize
      rw [h8]
      omega
    · show (0 : Nat) < 256 ^ szPid
      positivity
    · show (0 : Nat) < 256 ^ szPid
      positivity
  · intro j k hj hk
    have p1 : ∀ i, i < 8 →
        writeFooter (leWrite (writeBytes m (base + (C - 8 * r)) b)
          (base + n - 18 - 8 * (r + 1)) 8 b.length)
          (base + n - 18) ⟨r + 1, n - 18 - (C + b.length + 8), 0, 0⟩
          (base + n - 18 - 8 * (j + 1) + i)
        = leWrite (writeBytes m (base + (C - 8 * r)) b)
          (base + n - 18 - 8 * (r + 1)) 8 b.length
          (base + n - 18 - 8 * (j + 1) + i) := by
      intro i hi
      exact writeFooter_out (Or.inl (by omega))
    rw [show (8 : Nat) = szSize from rfl] at p1 ⊢
    rw [leRead_congr p1]
    rw [leRead_leWrite_out (by rw [show szSize = 8 from rfl]; omega)]
    rw [leRead_writeBytes_out (by rw [show szSize = 8 from rfl]; omega)]
    exact hk
  · have p1 : ∀ i, i < 8 →
        writeFooter (leWrite (writeBytes m (base + (C - 8 * r)) b)
          (base + n - 18 - 8 * (r + 1)) 8 b.length)
          (base + n - 18) ⟨r + 1, n - 18 - (C + b.length + 8), 0, 0⟩
          (base + n - 18 - 8 * (r + 1) + i)
        = leWrite (writeBytes m (base + (C - 8 * r)) b)
          (base + n - 18 - 8 * (r + 1)) 8 b.length
          (base + n - 18 - 8 * (r + 1) + i) := by
      intro i hi
      exact writeFooter_out (Or.inl (by omega))
    rw [show (8 : Nat) = szSize from rfl] at p1 ⊢
    rw [leRead_congr p1, leRead_leWrite,
      Nat.mod_eq_of_lt (by rw [show szSize = 8 from rfl]; omega)]
  · intro x hx
    rw [writeFooter_out (Or.inl (by omega)),
      leWrite_out (Or.inl (by omega)),
      writeBytes_out (Or.inl (by omega))]
  · apply readBytes_of_pointwise
    intro i hi
    rw [writeFooter_out (Or.inl (by omega)),
      leWrite_out (Or.inl (by omega)),
      writeBytes_in hi]

theorem buildPage_rep (m0 : Store) (base n pid : Nat) :
    ∀ (rs : List (List Nat)), n < 256 ^ szSize → 18 ≤ n →
    recCost rs ≤ n - 18 →
    readFooter (buildPage m0 base n pid rs) (base + n - 18)
      = ⟨rs.length, n - 18 - recCost rs, 0, 0⟩ ∧
    ∀ j, j < rs.length →
      leRead (buildPage m0 base n pid rs)
        (base + n - 18 - 8 * (j + 1)) 8
        = (rs.getD j []).length := by
  intro rs
  induction rs using List.reverseRecOn with
  | nil =>
    intro hb hn _
    constructor
    · show readFooter (writeFooter (zeroFill m0 base n)
        (base + n - footerSize) ⟨0, n - footerSize, 0, 0⟩)
        (base + n - 18) = _
      have h18 : footerSize = 18 := rfl
      rw [h18]
      rw [readFooter_writeFooter]
      · simp [recCost]
      · show (0 : Nat) < 256 ^ szSize
        positivity
      · show n - 18 < 256 ^ szSize
        omega
      · show (0 : Nat) < 256 ^ szPid
        positivity
      · show (0 : Nat) < 256 ^ szPid
        positivity
    · intro j hj
      simp at hj
  | append_singleton rs b ih =>
    intro hb hn hfit
    have hCext : recCost (rs ++ [b]) = recCost rs + (b.length + szSize) :=
      recCost_append rs b
    have h8 : szSize = 8 := rfl
    rw [h8] at hCext
    have hfit0 : recCost rs ≤ n - 18 := by omega
    obtain ⟨ihf, ihs⟩ := ih hb hn hfit0
    have hszr : 8 * rs.length ≤ recCost rs := by
      have := recCost_eq rs
      rw [h8] at this
      omega
    have hC : recCost rs + b.length + 8 ≤ n - 18 := by omega
    rw [buildPage_append]
    obtain ⟨sf, ssl, snew, _, _, _⟩ :=
      addRecordOnPage_step (buildPage m0 base n pid rs) base n pid pid true
        b rs.length (recCost rs) hb hszr hC ihf
    constructor
    · rw [sf, hCext]
      have ea : recCost rs + b.length + 8 = recCost rs + (b.length + 8) := by
        omega
      rw [ea]
      simp

    · intro j hj
      simp only [List.length_append, List.length_cons, List.length_nil] at hj
      rcases Nat.lt_or_ge j rs.length with hjr | hjr
      · have hgd : (rs ++ [b]).getD j [] = rs.getD j [] := by
          rw [List.getD_eq_getElem?_getD, List.getD_eq_getElem?_getD,
            List.getElem?_append_left hjr]
        rw [hgd]
        exact ssl j _ hjr (ihs j hjr)
      · have hjeq : j = rs.length := by omega
        subst hjeq
        have hgd : (rs ++ [b]).getD rs.length [] = b := by
          rw [List.getD_eq_getElem?_getD,
            List.getElem?_append_right (Nat.le_refl _)]
          simp
        rw [hgd]
        exact snew

theorem slotSum_built (m : Store) (fs : Nat) :
    ∀ (rs : List (List Nat)),
    (∀ j, j < rs.length →
      leRead m (fs - szSize * (j + 1)) szSize = (rs.getD j []).length) →
    slotSum m fs rs.length = lenSum rs := by
  intro rs
  induction rs using List.reverseRecOn with
  | nil => intro _; simp [slotSum, lenSum]
  | append_singleton rs b ih =>
    intro h
    have hlen : (rs ++ [b]).length = rs.length + 1 := by simp
    rw [hlen]
    show slotSum m fs rs.length + leRead m (fs - szSize * (rs.length + 1)) szSize
      = lenSum (rs ++ [b])
    rw [lenSum_append]
    have hpre : ∀ j, j < rs.length →
        leRead m (fs - szSize * (j + 1)) szSize = (rs.getD j []).length := by
      intro j hj
      have hx := h j (by rw [hlen]; omega)
      have hgd : (rs ++ [b]).getD j [] = rs.getD j [] := by
        rw [List.getD_eq_getElem?_getD, List.getD_eq_getElem?_getD,
          List.getElem?_append_left hj]
      rwa [hgd] at hx
    rw [ih hpre]
    have hx := h rs.length (by rw [hlen]; omega)
    have hgd : (rs ++ [b]).getD rs.length [] = b := by
      rw [List.getD_eq_getElem?_getD,
        List.getElem?_append_right (Nat.le_refl _)]
      simp
    rw [hgd] at hx
    rw [hx]

/-! ## Claim theorems -/

/-- C1: the claim states that get_record(page, slot_index) returns offset
equal to the prefix sum of sizes in insertion order and size equal to the
slot's own size.  On a page holding two records of sizes 1 and 2 (bytes
[10] then [20, 21], page size 37), the code instead walks the slot
directory from its lowest address, i.e. youngest slot first: get_record
at slot 0 reports size 2 (the size of the youngest record) and at slot 1
reports offset 2 and size 1, while the records actually stored are [10]
at offset 0 (size 1) and [20, 21] at offset 1 (size 2) - as the handle
that add_record itself returned for slot 1 shows.  Only the error
condition (slot_index at or past records) behaves as claimed. -/
theorem C1_get_record_reversed_eval :
    get_record (buildPage (fun _ => 0) 0 37 3 [[10], [20, 21]])
      ⟨3, 0, 37, false⟩ 0 = .ok ⟨3, 0, 0, 2⟩ ∧
    get_record (buildPage (fun _ => 0) 0 37 3 [[10], [20, 21]])
      ⟨3, 0, 37, false⟩ 1 = .ok ⟨3, 1, 2, 1⟩ ∧
    get_record (buildPage (fun _ => 0) 0 37 3 [[10], [20, 21]])
      ⟨3, 0, 37, false⟩ 2 = .error .Some ∧
    readBytes (buildPage (fun _ => 0) 0 37 3 [[10], [20, 21]]) 0 1 = [10] ∧
    readBytes (buildPage (fun _ => 0) 0 37 3 [[10], [20, 21]]) 1 2 = [20, 21] ∧
    (addRecordOnPage (buildPage (fun _ => 0) 0 37 3 [[10]])
      ⟨3, 0, 37, true⟩ 3 [20, 21] 2).2 = ⟨3, 1, 1, 2⟩ ∧
    get_record (buildPage (fun _ => 0) 0 37 3 [[10], [20, 21]])
      ⟨3, 0, 37, false⟩ 1 ≠ .ok ⟨3, 1, 1, 2⟩ := by
  decide

/-- C4: the claim states that the slot-index overload of read_record
errors exactly when get_record errors and on success returns a handle
equal to get_record's handle.  The error conditions do coincide, but on
the two-record page of sizes 1 and 2 the handles differ: read_record
walks the slot directory downward from the footer (slot-index order,
matching the layout add_record writes and copying the right bytes),
while get_record walks upward from the lowest slot address, so
get_record returns the reversed sizes. -/
theorem C4_read_record_get_record_eval :
    read_record_slot (buildPage (fun _ => 0) 0 37 3 [[10], [20, 21]])
      ⟨3, 0, 37, false⟩ 0 16 = .ok (⟨3, 0, 0, 1⟩, [10]) ∧
    read_record_slot (buildPage (fun _ => 0) 0 37 3 [[10], [20, 21]])
      ⟨3, 0, 37, false⟩ 1 16 = .ok (⟨3, 1, 1, 2⟩, [20, 21]) ∧
    read_record_slot (buildPage (fun _ => 0) 0 37 3 [[10], [20, 21]])
      ⟨3, 0, 37, false⟩ 2 16 = .error .Some ∧
    get_record (buildPage (fun _ => 0) 0 37 3 [[10], [20, 21]])
      ⟨3, 0, 37, false⟩ 0 = .ok ⟨3, 0, 0, 2⟩ ∧
    get_record (buildPage (fun _ => 0) 0 37 3 [[10], [20, 21]])
      ⟨3, 0, 37, false⟩ 1 = .ok ⟨3, 1, 2, 1⟩ ∧
    get_record (buildPage (fun _ => 0) 0 37 3 [[10], [20, 21]])
      ⟨3, 0, 37, false⟩ 2 = .error .Some ∧
    (⟨3, 0, 0, 1⟩ : record_index) ≠ ⟨3, 0, 0, 2⟩ := by
  decide

/-- C7: for every page created by new_pinned_page (records 0, freeSpace
pageSize - sizeof(Footer)) and grown by any sequence of successful
add_record writes - captured by recCost rs ≤ pageSize - sizeof(Footer),
the exact room each successful add consumed, with equality on an
exactly-full page - the footer satisfies freeSpace = pageSize -
sizeof(Footer) - records * sizeof(Size) - (sum of the slot-directory
sizes), and the record bytes, slot directory and footer together never
exceed the page.  Moreover, for every further record b that fits, the
add_record guard freeSpace >= recordSize + sizeof(Size) holds and the
handle returned for b never overlaps the slot directory or footer. -/
theorem C7_footer_invariant (m0 : Store) (base n pid : Nat)
    (rs : List (List Nat))
    (hb : n < 256 ^ szSize) (hn : footerSize ≤ n)
    (hfit : recCost rs ≤ n - footerSize) :
    ((readFooter (buildPage m0 base n pid rs) (base + n - footerSize)).freeSpace
      = n - footerSize
        - szSize * (readFooter (buildPage m0 base n pid rs)
            (base + n - footerSize)).records
        - slotSum (buildPage m0 base n pid rs) (base + n - footerSize)
            (readFooter (buildPage m0 base n pid rs)
              (base + n - footerSize)).records) ∧
    (slotSum (buildPage m0 base n pid rs) (base + n - footerSize)
        (readFooter (buildPage m0 base n pid rs)
          (base + n - footerSize)).records
      + szSize * (readFooter (buildPage m0 base n pid rs)
          (base + n - footerSize)).records
      + footerSize ≤ n) ∧
    (∀ b : List Nat, recCost (rs ++ [b]) ≤ n - footerSize →
      (b.length + szSize
        ≤ (readFooter (buildPage m0 base n pid rs)
            (base + n - footerSize)).freeSpace) ∧
      ((addRecordOnPage (buildPage m0 base n pid rs) ⟨pid, base, n, true⟩
          pid b b.length).2.offset
        + (addRecordOnPage (buildPage m0 base n pid rs) ⟨pid, base, n, true⟩
            pid b b.length).2.size
        + szSize * (rs.length + 1) + footerSize ≤ n)) := by
  have h8 : szSize = 8 := rfl
  have h18 : footerSize = 18 := rfl
  rw [h8] at hb
  rw [h18] at hn hfit
  rw [h8, h18]
  obtain ⟨ihf, ihs⟩ := buildPage_rep m0 base n pid rs hb hn hfit
  have hslot : slotSum (buildPage m0 base n pid rs) (base + n - 18) rs.length
      = lenSum rs := by
    apply slotSum_built
    intro j hj
    rw [h8]
    exact ihs j hj
  have hcost := recCost_eq rs
  rw [h8] at hcost
  refine ⟨?_, ?_, ?_⟩
  · rw [ihf]
    show n - 18 - recCost rs = n - 18 - 8 * rs.length - slotSum _ _ rs.length
    rw [hslot]
    omega
  · rw [ihf]
    show slotSum _ _ rs.length + 8 * rs.length + 18 ≤ n
    rw [hslot]
    omega
  · intro b hfitb
    have hCext := recCost_append rs b
    rw [h8] at hCext
    have hszr : 8 * rs.length ≤ recCost rs := by omega
    have hC : recCost rs + b.length + 8 ≤ n - 18 := by omega
    obtain ⟨_, _, _, _, _, sidx⟩ :=
      addRecordOnPage_step (buildPage m0 base n pid rs) base n pid pid true
        b rs.length (recCost rs) (by rw [h8]; exact hb) hszr hC ihf
    refine ⟨?_, ?_⟩
    · rw [ihf]
      show b.length + 8 ≤ n - 18 - recCost rs
      omega
    · rw [sidx]
      show recCost rs - 8 * rs.length + b.length + 8 * (rs.length + 1) + 18 ≤ n
      omega

/-- C7 witness: the invariant instantiated on a concrete 37-byte page
holding a 1-byte record (and, through the fits-clause, a further 2-byte
record). -/
theorem C7_footer_invariant_witness :
    ((37 : Nat) < 256 ^ szSize ∧ footerSize ≤ 37 ∧
      recCost [[10]] ≤ 37 - footerSize) ∧
    (((readFooter (buildPage (fun _ => 0) 0 37 3 [[10]]) (0 + 37 - footerSize)).freeSpace
      = 37 - footerSize
        - szSize * (readFooter (buildPage (fun _ => 0) 0 37 3 [[10]])
            (0 + 37 - footerSize)).records
        - slotSum (buildPage (fun _ => 0) 0 37 3 [[10]]) (0 + 37 - footerSize)
            (readFooter (buildPage (fun _ => 0) 0 37 3 [[10]])
              (0 + 37 - footerSize)).records) ∧
    (slotSum (buildPage (fun _ => 0) 0 37 3 [[10]]) (0 + 37 - footerSize)
        (readFooter (buildPage (fun _ => 0) 0 37 3 [[10]])
          (0 + 37 - footerSize)).records
      + szSize * (readFooter (buildPage (fun _ => 0) 0 37 3 [[10]])
          (0 + 37 - footerSize)).records
      + footerSize ≤ 37) ∧
    (∀ b : List Nat, recCost ([[10]] ++ [b]) ≤ 37 - footerSize →
      (b.length + szSize
        ≤ (readFooter (buildPage (fun _ => 0) 0 37 3 [[10]])
            (0 + 37 - footerSize)).freeSpace) ∧
      ((addRecordOnPage (buildPage (fun _ => 0) 0 37 3 [[10]]) ⟨3, 0, 37, true⟩
          3 b b.length).2.offset
        + (addRecordOnPage (buildPage (fun _ => 0) 0 37 3 [[10]]) ⟨3, 0, 37, true⟩
            3 b b.length).2.size
        + szSize * (List.length [[10]] + 1) + footerSize ≤ 37))) :=
  ⟨⟨by decide, by decide, by decide⟩,
    C7_footer_invariant (fun _ => 0) 0 37 3 [[10]]
      (by decide) (by decide) (by decide)⟩

/-- A Block Provider whose reads deliver the byte 171 everywhere and
whose writes and frees succeed; allocation always fails. -/
def c2Prov : page_interface :=
  ⟨fun _ _ => (.None, fun _ => 171), fun _ _ => .None,
   fun _ => .error .Some, fun _ => .None⟩

/-- A Block Provider whose writes succeed (reads deliver the frame
unchanged, allocation fails). -/
def okWriteProv : page_interface :=
  ⟨fun _ s => (.None, s), fun _ _ => .None, fun _ => .error .Some,
   fun _ => .None⟩

/-- A Block Provider whose writes fail. -/
def badWriteProv : page_interface :=
  ⟨fun _ s => (.None, s), fun _ _ => .Some, fun _ => .error .Some,
   fun _ => .None⟩

/-- The Block Provider of the C5 scenario: reads deliver a freshly
formatted empty 27-byte page (records 0, freeSpace 9 at footer offset
17, chain pointers 0), writes succeed, allocation returns page id 9. -/
def c5Prov : page_interface :=
  ⟨fun _ _ => (.None, fun o => if o = 17 then 9 else 0), fun _ _ => .None,
   fun _ => .ok 9, fun _ => .None⟩

/-- C2: the claim states that after a pin_page miss in which the Block
Provider read succeeded, the returned handle exposes the frame that
read_page filled, also after the loaded entry is rotated to the end of
the directory.  On a freshly constructed manager with pool capacity 2
(page size 27, pool bytes zero), pin_page(1) reserves the entry with
pool index 0 and the provider writes byte 171 into frame 0; but
load_page rotates the loaded entry to the end and still returns its old
index 0, so pin_page reads directory[0].poolIndex of the rotated
directory - the other, never-used entry - and hands back a handle onto
frame 1, whose bytes are still the uninitialised 0. -/
theorem C2_pin_miss_wrong_frame_eval :
    (pinPage c2Prov (mkManager 2 27 (fun _ => 0)) 1).1
      = .ok ⟨1, 27, 27, false⟩ ∧
    (pinPage c2Prov (mkManager 2 27 (fun _ => 0)) 1).2.2 = [.readEv 1] ∧
    (pinPage c2Prov (mkManager 2 27 (fun _ => 0)) 1).2.1.directory
      = [⟨false, 0, 1, 0⟩, ⟨false, 1, 0, 1⟩] ∧
    (pinPage c2Prov (mkManager 2 27 (fun _ => 0)) 1).2.1.pool 0 = 171 ∧
    (pinPage c2Prov (mkManager 2 27 (fun _ => 0)) 1).2.1.pool 27 = 0 ∧
    (171 : Nat) ≠ 0 := by
  decide

/-- C3: the claim states that flush_page clears the dirty bit if and
only if the write succeeded, keeps the entry dirty on a write error, and
returns an error without any provider callback when no unpinned dirty
matching entry exists.  The code inverts the first part (pages.hpp line
318): on a manager whose single directory entry is page 7, unpinned and
dirty, a successful write returns None but leaves dirty set, while a
failing write returns the error yet clears the dirty bit.  The no-match
part behaves as claimed: flushing page 9, or a pinned dirty page 5,
returns error::Some without invoking write_page. -/
theorem C3_flush_page_inverted_eval :
    (flushPage okWriteProv ⟨27, fun _ => 0, [⟨true, 7, 0, 0⟩]⟩ 7).1
      = error.None ∧
    (flushPage okWriteProv ⟨27, fun _ => 0, [⟨true, 7, 0, 0⟩]⟩ 7).2.1.directory
      = [⟨true, 7, 0, 0⟩] ∧
    (flushPage okWriteProv ⟨27, fun _ => 0, [⟨true, 7, 0, 0⟩]⟩ 7).2.2
      = [.writeEv 7] ∧
    (flushPage badWriteProv ⟨27, fun _ => 0, [⟨true, 7, 0, 0⟩]⟩ 7).1
      = error.Some ∧
    (flushPage badWriteProv ⟨27, fun _ => 0, [⟨true, 7, 0, 0⟩]⟩ 7).2.1.directory
      = [⟨false, 7, 0, 0⟩] ∧
    (flushPage okWriteProv ⟨27, fun _ => 0, [⟨true, 7, 0, 0⟩]⟩ 9).1
      = error.Some ∧
    (flushPage okWriteProv ⟨27, fun _ => 0, [⟨true, 7, 0, 0⟩]⟩ 9).2.2 = [] ∧
    (flushPage okWriteProv ⟨27, fun _ => 0, [⟨true, 7, 0, 0⟩]⟩ 9).2.1.directory
      = [⟨true, 7, 0, 0⟩] ∧
    (flushPage okWriteProv ⟨27, fun _ => 0, [⟨true, 5, 0, 1⟩]⟩ 5).1
      = error.Some ∧
    (flushPage okWriteProv ⟨27, fun _ => 0, [⟨true, 5, 0, 1⟩]⟩ 5).2.2 = [] := by
  decide

/-- C5: the claim states the round trip - after add_record succeeds with
bytes b and returns handle h, pinning h.page_id and read_record(page, h,
buffer, n) succeeds and fills the buffer with the prefix of b.  The
following reachable scenario breaks it through the pin_page mis-frame
slip (see C2): manager with pool 2, page size 27; new_pinned_page
allocates page 9 into frame 0 and the handle is kept pinned; then
add_record(5, [42]) misses, the provider loads page 5 into frame 1, but
the handle add_record receives exposes frame 0 (page 9's frame), so the
record byte 42 lands in frame 0 while the handle says page 5, slot 0.
Re-pinning page 5 exposes frame 1 and read_record succeeds yet returns
[0], not [42].  The record-size bound of the claim holds (1 +
sizeof(Size) = page_data_size = 9). -/
theorem C5_round_trip_broken_eval :
    (1 + szSize ≤ page_data_size (mkManager 2 27 (fun _ => 0))) ∧
    (newPinnedPage c5Prov (mkManager 2 27 (fun _ => 0))).1
      = .ok ⟨9, 0, 27, true⟩ ∧
    (add_record c5Prov (newPinnedPage c5Prov (mkManager 2 27 (fun _ => 0))).2.1
      5 [42] 1 4).isSome = true ∧
    ((add_record c5Prov (newPinnedPage c5Prov (mkManager 2 27 (fun _ => 0))).2.1
      5 [42] 1 4).getD (.error .None, mkManager 2 27 (fun _ => 0), [])).1
      = .ok ⟨5, 0, 0, 1⟩ ∧
    ((add_record c5Prov (newPinnedPage c5Prov (mkManager 2 27 (fun _ => 0))).2.1
      5 [42] 1 4).getD (.error .None, mkManager 2 27 (fun _ => 0), [])).2.1.pool 0
      = 42 ∧
    (pinPage c5Prov
      ((add_record c5Prov (newPinnedPage c5Prov (mkManager 2 27 (fun _ => 0))).2.1
        5 [42] 1 4).getD (.error .None, mkManager 2 27 (fun _ => 0), [])).2.1
      5).1 = .ok ⟨5, 27, 27, false⟩ ∧
    read_record
      (pinPage c5Prov
        ((add_record c5Prov (newPinnedPage c5Prov (mkManager 2 27 (fun _ => 0))).2.1
          5 [42] 1 4).getD (.error .None, mkManager 2 27 (fun _ => 0), [])).2.1
        5).2.1.pool
      ⟨5, 27, 27, false⟩ ⟨5, 0, 0, 1⟩ 1 = (error.None, [0]) ∧
    ([0] : List Nat) ≠ [42] := by
  decide

/-- C6: whenever recordSize + sizeof(Size) exceeds page_data_size (on a
manager valid per make_page_manager, i.e. sizeof(Footer) + sizeof(Size)
< pageSize), add_record returns an error immediately: the state is
returned unchanged and no Block Provider callback is invoked (the guard
fires before any page is pinned). -/
theorem C6_oversize_rejected (P : page_interface) (s : page_manager)
    (pageid : Nat) (data : List Nat) (recordSize fuel : Nat)
    (hvalid : footerSize + szSize < s.pageSize)
    (hbig : page_data_size s < recordSize + szSize) :
    add_record P s pageid data recordSize fuel
      = some (.error .Some, s, []) := by
  have hg : page_data_size s - szSize < recordSize := by
    unfold page_data_size at *
    simp only [footerSize, szSize, szPid] at *
    omega
  unfold add_record
  rw [if_pos hg]

/-- C6 witness: a 2-byte record on a 27-byte page (page_data_size 9,
record footprint 10). -/
theorem C6_oversize_rejected_witness :
    (footerSize + szSize < (mkManager 1 27 (fun _ => 0)).pageSize ∧
      page_data_size (mkManager 1 27 (fun _ => 0)) < 2 + szSize) ∧
    add_record okWriteProv (mkManager 1 27 (fun _ => 0)) 1 [5, 5] 2 3
      = some (.error .Some, mkManager 1 27 (fun _ => 0), []) :=
  ⟨⟨by decide, by decide⟩,
    C6_oversize_rejected okWriteProv (mkManager 1 27 (fun _ => 0)) 1 [5, 5] 2 3
      (by decide) (by decide)⟩

/-- Characterisation of the flush_free_pages scan: on overall success it
wrote exactly the unpinned dirty entries in directory order, cleared
exactly their dirty bits, and every such write succeeded; on failure the
directory splits as d1 ++ e :: d2 where e is the first unpinned dirty
entry whose write failed, the unpinned dirty entries of d1 were written
successfully and cleared, and e and d2 are untouched. -/
theorem ffpScan_spec (P : page_interface) (pageSize : Nat) (pool : Store) :
    ∀ l : List directory_entry,
    ((ffpScan P pageSize pool l).1 = error.None →
      (ffpScan P pageSize pool l).2.2
        = (l.filter fun e => e.pinCount == 0 && e.dirty).map
            (fun e => .writeEv e.page) ∧
      (ffpScan P pageSize pool l).2.1
        = l.map (fun e => if e.pinCount = 0 ∧ e.dirty = true then
            { e with dirty := false } else e) ∧
      (∀ e ∈ l, e.pinCount = 0 ∧ e.dirty = true →
        P.write_page e.page (frameFn pool pageSize e.poolIndex)
          = error.None)) ∧
    ((ffpScan P pageSize pool l).1 ≠ error.None →
      ∃ d1 e d2, l = d1 ++ e :: d2 ∧
        e.pinCount = 0 ∧ e.dirty = true ∧
        P.write_page e.page (frameFn pool pageSize e.poolIndex)
          = (ffpScan P pageSize pool l).1 ∧
        (∀ x ∈ d1, x.pinCount = 0 ∧ x.dirty = true →
          P.write_page x.page (frameFn pool pageSize x.poolIndex)
            = error.None) ∧
        (ffpScan P pageSize pool l).2.1
          = d1.map (fun x => if x.pinCount = 0 ∧ x.dirty = true then
              { x with dirty := false } else x) ++ e :: d2 ∧
        (ffpScan P pageSize pool l).2.2
          = (d1.filter fun x => x.pinCount == 0 && x.dirty).map
              (fun x => .writeEv x.page) ++ [.writeEv e.page]) := by
  intro l
  induction l with
  | nil =>
    constructor
    · intro _
      exact ⟨rfl, rfl, by intro e he; simp at he⟩
    · intro h
      exact absurd rfl h
  | cons e rest ih =>
    by_cases he : e.pinCount = 0 ∧ e.dirty = true
    · by_cases hw : P.write_page e.page (frameFn pool pageSize e.poolIndex)
          = error.None
      · have hred : ffpScan P pageSize pool (e :: rest)
            = ((ffpScan P pageSize pool rest).1,
              { e with dirty := false } :: (ffpScan P pageSize pool rest).2.1,
              .writeEv e.page :: (ffpScan P pageSize pool rest).2.2) := by
          simp only [ffpScan]
          rw [if_pos he]
          rw [if_neg (by simpa using hw)]
        constructor
        · intro hok
          rw [hred] at hok
          obtain ⟨htr, hdir, hall⟩ := ih.1 hok
          refine ⟨?_, ?_, ?_⟩
          · rw [hred]
            have : (e :: rest).filter (fun x => x.pinCount == 0 && x.dirty)
                = e :: rest.filter (fun x => x.pinCount == 0 && x.dirty) := by
              rw [List.filter_cons_of_pos (by simp [he.1, he.2])]
            rw [this, List.map_cons, ← htr]
          · rw [hred]
            simp only [List.map_cons, if_pos he]
            rw [hdir]
          · intro x hx hux
            rcases List.mem_cons.mp hx with hx | hx
            · subst hx
              exact hw
            · exact hall x hx hux
        · intro herr
          rw [hred] at herr
          obtain ⟨d1, e2, d2, hsplit, hu, hd, hwr, hok1, hdir, htr⟩ :=
            ih.2 herr
          refine ⟨e :: d1, e2, d2, by rw [hsplit]; rfl, hu, hd, ?_, ?_, ?_, ?_⟩
          · rw [hred]
            exact hwr
          · intro x hx hux
            rcases List.mem_cons.mp hx with hx | hx
            · subst hx
              exact hw
            · exact hok1 x hx hux
          · rw [hred]
            simp only [List.map_cons, if_pos he, List.cons_append]
            rw [hdir]
          · rw [hred]
            have : (e :: d1).filter (fun x => x.pinCount == 0 && x.dirty)
                = e :: d1.filter (fun x => x.pinCount == 0 && x.dirty) := by
              rw [List.filter_cons_of_pos (by simp [he.1, he.2])]
            rw [this, List.map_cons, List.cons_append, ← htr]
      · have hred : ffpScan P pageSize pool (e :: rest)
            = (P.write_page e.page (frameFn pool pageSize e.poolIndex),
              e :: rest, [.writeEv e.page]) := by
          simp only [ffpScan]
          rw [if_pos he]
          rw [if_pos (by simpa using hw)]
        constructor
        · intro hok
          rw [hred] at hok
          exact absurd hok hw
        · intro _
          refine ⟨[], e, rest, rfl, he.1, he.2, ?_, ?_, ?_, ?_⟩
          · rw [hred]
          · intro x hx
            simp at hx
          · rw [hred]
            rfl
          · rw [hred]
            rfl
    · have hred : ffpScan P pageSize pool (e :: rest)
          = ((ffpScan P pageSize pool rest).1,
            e :: (ffpScan P pageSize pool rest).2.1,
            (ffpScan P pageSize pool rest).2.2) := by
        simp only [ffpScan]
        rw [if_neg he]
      have heb : (e.pinCount == 0 && e.dirty) = false := by
        rcases Nat.eq_zero_or_pos e.pinCount with h0 | h0
        · have : ¬ e.dirty = true := fun hd => he ⟨h0, hd⟩
          simp [this]
        · simp [Nat.pos_iff_ne_zero.mp h0]
      constructor
      · intro hok
        rw [hred] at hok
        obtain ⟨htr, hdir, hall⟩ := ih.1 hok
        refine ⟨?_, ?_, ?_⟩
        · rw [hred]
          rw [List.filter_cons_of_neg (by simp [heb])]
          exact htr
        · rw [hred]
          simp only [List.map_cons, if_neg he]
          rw [hdir]
        · intro x hx hux
          rcases List.mem_cons.mp hx with hx | hx
          · subst hx
            exact absurd hux he
          · exact hall x hx hux
      · intro herr
        rw [hred] at herr
        obtain ⟨d1, e2, d2, hsplit, hu, hd, hwr, hok1, hdir, htr⟩ :=
          ih.2 herr
        refine ⟨e :: d1, e2, d2, by rw [hsplit]; rfl, hu, hd, ?_, ?_, ?_, ?_⟩
        · rw [hred]
          exact hwr
        · intro x hx hux
          rcases List.mem_cons.mp hx with hx | hx
          · subst hx
            exact absurd hux he
          · exact hok1 x hx hux
        · rw [hred]
          simp only [List.map_cons, if_neg he, List.cons_append]
          rw [hdir]
        · rw [hred]
          rw [List.filter_cons_of_neg (by simp [heb])]
          exact htr

/-- C8: flush_free_pages iterates the directory in order, calling
write_page exactly for the entries with pin count 0 and dirty set,
clearing each entry's dirty bit as its write succeeds; it stops at the
first write error and returns it, leaving the failing entry and all
later entries with their dirty bits; consequently, after it returns
error::None every unpinned directory entry is clean.  The pool bytes and
page size are never touched. -/
theorem C8_flush_free_pages (P : page_interface) (s : page_manager) :
    (flushFreePages P s).2.1.pageSize = s.pageSize ∧
    (flushFreePages P s).2.1.pool = s.pool ∧
    ((flushFreePages P s).1 = error.None →
      (flushFreePages P s).2.2
        = (s.directory.filter fun e => e.pinCount == 0 && e.dirty).map
            (fun e => .writeEv e.page) ∧
      (flushFreePages P s).2.1.directory
        = s.directory.map (fun e => if e.pinCount = 0 ∧ e.dirty = true then
            { e with dirty := false } else e) ∧
      (∀ e ∈ s.directory, e.pinCount = 0 ∧ e.dirty = true →
        P.write_page e.page (frameFn s.pool s.pageSize e.poolIndex)
          = error.None) ∧
      (∀ e2 ∈ (flushFreePages P s).2.1.directory,
        e2.pinCount = 0 → e2.dirty = false)) ∧
    ((flushFreePages P s).1 ≠ error.None →
      ∃ d1 e d2, s.directory = d1 ++ e :: d2 ∧
        e.pinCount = 0 ∧ e.dirty = true ∧
        P.write_page e.page (frameFn s.pool s.pageSize e.poolIndex)
          = (flushFreePages P s).1 ∧
        (∀ x ∈ d1, x.pinCount = 0 ∧ x.dirty = true →
          P.write_page x.page (frameFn s.pool s.pageSize x.poolIndex)
            = error.None) ∧
        (flushFreePages P s).2.1.directory
          = d1.map (fun x => if x.pinCount = 0 ∧ x.dirty = true then
              { x with dirty := false } else x) ++ e :: d2 ∧
        (flushFreePages P s).2.2
          = (d1.filter fun x => x.pinCount == 0 && x.dirty).map
              (fun x => .writeEv x.page) ++ [.writeEv e.page]) := by
  obtain ⟨hok, herr⟩ := ffpScan_spec P s.pageSize s.pool s.directory
  refine ⟨rfl, rfl, ?_, ?_⟩
  · intro h
    obtain ⟨h1, h2, h3⟩ := hok h
    refine ⟨h1, h2, h3, ?_⟩
    intro e2 he2 hpin
    have he2m : e2 ∈ s.directory.map
        (fun e => if e.pinCount = 0 ∧ e.dirty = true then
          { e with dirty := false } else e) := by
      rw [← h2]
      exact he2
    obtain ⟨x, hx, hfx⟩ := List.mem_map.mp he2m
    by_cases hux : x.pinCount = 0 ∧ x.dirty = true
    · rw [if_pos hux] at hfx
      rw [← hfx]
    · rw [if_neg hux] at hfx
      subst hfx
      rcases hb : x.dirty with _ | _
      · rfl
      · exact absurd ⟨hpin, hb⟩ hux
  · intro h
    exact herr h

/-- C8 witness: a three-entry directory (unpinned dirty page 7, pinned
dirty page 3, unpinned clean page 4) under a provider whose writes
succeed: exactly page 7 is written and its dirty bit cleared. -/
theorem C8_flush_free_pages_witness :
    (flushFreePages okWriteProv
      ⟨27, fun _ => 0, [⟨true, 7, 0, 0⟩, ⟨true, 3, 1, 1⟩, ⟨false, 4, 2, 0⟩]⟩).2.2
      = [.writeEv 7] ∧
    (flushFreePages okWriteProv
      ⟨27, fun _ => 0, [⟨true, 7, 0, 0⟩, ⟨true, 3, 1, 1⟩, ⟨false, 4, 2, 0⟩]⟩).2.1.directory
      = [⟨false, 7, 0, 0⟩, ⟨true, 3, 1, 1⟩, ⟨false, 4, 2, 0⟩] :=
  ⟨((C8_flush_free_pages okWriteProv
      ⟨27, fun _ => 0, [⟨true, 7, 0, 0⟩, ⟨true, 3, 1, 1⟩, ⟨false, 4, 2, 0⟩]⟩).2.2.1
      (by decide)).1.trans (by decide),
   ((C8_flush_free_pages okWriteProv
      ⟨27, fun _ => 0, [⟨true, 7, 0, 0⟩, ⟨true, 3, 1, 1⟩, ⟨false, 4, 2, 0⟩]⟩).2.2.1
      (by decide)).2.1.trans (by decide)⟩

/-! ## Operational traces over the manager API

A configuration pairs the manager state with the list of live
pinned_page handles the caller holds; an op is one public API call or
the destruction of one live handle.  add_record's internal handles are
created and destroyed inside the call itself. -/

/-- One caller-visible action on the page manager. -/
inductive op where
  | pinOp (id : Nat)
  | dropOp (k : Nat)
  | flushOp (id : Nat)
  | flushAllOp
  | newPageOp
  | addRecOp (pageid : Nat) (data : List Nat) (recordSize fuel : Nat)

/-- Manager state plus the live handles the caller holds. -/
def config : Type := page_manager × List pinned_page

/-- Execute one op: API calls returning a handle append it to the live
list; dropping handle k runs the pinned_page destructor on it. -/
def step (P : page_interface) : config → op → config
  | (s, hs), .pinOp id =>
    match pinPage P s id with
    | (.ok h, s1, _) => (s1, h :: hs)
    | (.error _, s1, _) => (s1, hs)
  | (s, hs), .dropOp k =>
    match hs.get? k with
    | some h => (dropHandle s h, hs.eraseIdx k)
    | none => (s, hs)
  | (s, hs), .flushOp id => ((flushPage P s id).2.1, hs)
  | (s, hs), .flushAllOp => ((flushFreePages P s).2.1, hs)
  | (s, hs), .newPageOp =>
    match newPinnedPage P s with
    | (.ok h, s1, _) => (s1, h :: hs)
    | (.error _, s1, _) => (s1, hs)
  | (s, hs), .addRecOp pageid data recordSize fuel =>
    match add_record P s pageid data recordSize fuel with
    | some (_, s1, _) => (s1, hs)
    | none => (s, hs)

/-- Execute a list of ops. -/
def steps (P : page_interface) (c : config) (ops : List op) : config :=
  ops.foldl (step P) c

/-! ### Shape lemmas for the directory scans -/

theorem scanPin_eq_none {page : Nat} :
    ∀ {dir : List directory_entry}, (∀ e ∈ dir, e.page ≠ page) →
    scanPin page dir = none := by
  intro dir
  induction dir with
  | nil => intro _; rfl
  | cons e rest ih =>
    intro h
    unfold scanPin
    rw [if_neg (h e (by simp))]
    rw [ih (fun x hx => h x (by simp [hx]))]

theorem scanPin_none_forall {page : Nat} :
    ∀ {dir : List directory_entry}, scanPin page dir = none →
    ∀ e ∈ dir, e.page ≠ page := by
  intro dir
  induction dir with
  | nil => intro _ e he; simp at he
  | cons e rest ih =>
    intro h x hx
    unfold scanPin at h
    by_cases hp : e.page = page
    · rw [if_pos hp] at h
      exact absurd h (by simp)
    · rw [if_neg hp] at h
      rcases List.mem_cons.mp hx with hx | hx
      · subst hx; exact hp
      · rcases hrec : scanPin page rest with _ | pr
        · exact ih hrec x hx
        · rw [hrec] at h
          simp at h

theorem scanPin_some_split {page : Nat} :
    ∀ {dir : List directory_entry} {dir2 : List directory_entry} {pi : Nat},
    scanPin page dir = some (dir2, pi) →
    ∃ d1 e d2, dir = d1 ++ e :: d2 ∧ e.page = page ∧
      (∀ x ∈ d1, x.page ≠ page) ∧
      dir2 = d1 ++ { e with pinCount := e.pinCount + 1 } :: d2 ∧
      pi = e.poolIndex := by
  intro dir
  induction dir with
  | nil => intro dir2 pi h; exact absurd h (by simp [scanPin])
  | cons e rest ih =>
    intro dir2 pi h
    unfold scanPin at h
    by_cases hp : e.page = page
    · rw [if_pos hp] at h
      refine ⟨[], e, rest, rfl, hp, by simp, ?_, ?_⟩
      · have := (Option.some.injEq _ _).mp h
        simp only [Prod.mk.injEq] at this
        rw [← this.1]
        rfl
      · have := (Option.some.injEq _ _).mp h
        simp only [Prod.mk.injEq] at this
        rw [← this.2]
    · rw [if_neg hp] at h
      rcases hrec : scanPin page rest with _ | pr
      · rw [hrec] at h
        simp at h
      · rw [hrec] at h
        obtain ⟨d1, e2, d2, hsp, he2, hd1, hdir, hpi⟩ := ih hrec
        have hinj := (Option.some.injEq _ _).mp h
        simp only [Prod.mk.injEq] at hinj
        refine ⟨e :: d1, e2, d2, by rw [hsp]; rfl, he2, ?_, ?_, ?_⟩
        · intro x hx
          rcases List.mem_cons.mp hx with hx | hx
          · subst hx; exact hp
          · exact hd1 x hx
        · rw [← hinj.1, hdir]
          rfl
        · rw [← hinj.2, hpi]

theorem unpinScan_eq_self {page : Nat} {dirty : Bool} :
    ∀ {dir : List directory_entry}, (∀ e ∈ dir, e.page ≠ page) →
    unpinScan page dirty dir = dir := by
  intro dir
  induction dir with
  | nil => intro _; rfl
  | cons e rest ih =>
    intro h
    unfold unpinScan
    rw [if_neg (h e (by simp)), ih (fun x hx => h x (by simp [hx]))]

theorem unpinScan_split {page : Nat} {dirty : Bool}
    {e : directory_entry} {d2 : List directory_entry} :
    ∀ {d1 : List directory_entry}, (∀ x ∈ d1, x.page ≠ page) →
    e.page = page →
    unpinScan page dirty (d1 ++ e :: d2)
      = d1 ++ { e with
          dirty := dirty || e.dirty
          pinCount := e.pinCount - 1 } :: d2 := by
  intro d1
  induction d1 with
  | nil =>
    intro _ he
    show unpinScan page dirty (e :: d2) = _
    unfold unpinScan
    rw [if_pos he]
    rfl
  | cons x rest ih =>
    intro h he
    have hx : x.page ≠ page := h x (by simp)
    show unpinScan page dirty (x :: (rest ++ e :: d2)) = _
    unfold unpinScan
    rw [if_neg hx, ih (fun y hy => h y (by simp [hy])) he]
    rfl

theorem mkde_ok_split (P : page_interface) (pageSize : Nat) (pool : Store)
    {e : directory_entry} {d2 : List directory_entry} :
    ∀ {d1 : List directory_entry}, (∀ x ∈ d1, x.pinCount ≠ 0) →
    e.pinCount = 0 →
    (e.dirty = true →
      P.write_page e.page (frameFn pool pageSize e.poolIndex) = error.None) →
    mkde P pageSize pool (d1 ++ e :: d2)
      = (.ok (d1.length,
          d1 ++ { e with
            pinCount := 1
            dirty := false } :: d2),
        if e.dirty then [.writeEv e.page] else []) := by
  intro d1
  induction d1 with
  | nil =>
    intro _ he hwb
    show mkde P pageSize pool (e :: d2) = _
    unfold mkde
    rw [if_pos he]
    rcases hd : e.dirty with _ | _
    · simp [hd]
    · simp [hd, hwb hd]
  | cons x rest ih =>
    intro h he hwb
    have hx : x.pinCount ≠ 0 := h x (by simp)
    show mkde P pageSize pool (x :: (rest ++ e :: d2)) = _
    unfold mkde
    rw [if_neg hx, ih (fun y hy => h y (by simp [hy])) he hwb]
    rfl

theorem mkde_ok_inv (P : page_interface) (pageSize : Nat) (pool : Store) :
    ∀ {dir : List directory_entry} {i : Nat} {dir2 : List directory_entry}
      {tr : List io_event},
    mkde P pageSize pool dir = (.ok (i, dir2), tr) →
    ∃ d1 e d2, dir = d1 ++ e :: d2 ∧ i = d1.length ∧
      (∀ x ∈ d1, x.pinCount ≠ 0) ∧ e.pinCount = 0 ∧
      (e.dirty = true →
        P.write_page e.page (frameFn pool pageSize e.poolIndex)
          = error.None) ∧
      dir2 = d1 ++ { e with
        pinCount := 1
        dirty := false } :: d2 := by
  intro dir
  induction dir with
  | nil => intro i dir2 tr h; exact absurd h (by simp [mkde])
  | cons e rest ih =>
    intro i dir2 tr h
    by_cases hp : e.pinCount = 0
    · rcases hd : e.dirty with _ | _
      · have hred : mkde P pageSize pool (e :: rest)
            = (.ok (0, (⟨false, e.page, e.poolIndex, 1⟩ : directory_entry)
                :: rest), []) := by
          unfold mkde
          rw [if_pos hp, if_neg (by simp [hd])]
          rw [← hd]
        rw [hred] at h
        simp only [Prod.mk.injEq, Except.ok.injEq] at h
        refine ⟨[], e, rest, rfl, h.1.1.symm, by simp, hp, ?_, ?_⟩
        · intro hcon
          rw [hd] at hcon
          exact absurd hcon (by simp)
        · rw [← h.1.2]
          rfl
      · by_cases hw : P.write_page e.page (frameFn pool pageSize e.poolIndex)
            = error.None
        · have hred : mkde P pageSize pool (e :: rest)
              = (.ok (0, { e with
                  dirty := false
                  pinCount := 1 } :: rest), [.writeEv e.page]) := by
            unfold mkde
            rw [if_pos hp, if_pos (by simp [hd]), hw]
            rw [if_neg (by simp)]
          rw [hred] at h
          simp only [Prod.mk.injEq, Except.ok.injEq] at h
          refine ⟨[], e, rest, rfl, h.1.1.symm, by simp, hp,
            fun _ => hw, ?_⟩
          rw [← h.1.2]
          rfl
        · have hred : mkde P pageSize pool (e :: rest)
              = (.error (P.write_page e.page (frameFn pool pageSize e.poolIndex)),
                [.writeEv e.page]) := by
            unfold mkde
            rw [if_pos hp, if_pos (by simp [hd])]
            rw [if_pos (by simpa using hw)]
          rw [hred] at h
          simp at h
    · rcases hrec : mkde P pageSize pool rest with ⟨res, tr0⟩
      rcases res with err | pr
      · have hred : mkde P pageSize pool (e :: rest) = (.error err, tr0) := by
          unfold mkde
          rw [if_neg hp, hrec]
        rw [hred] at h
        simp at h
      · obtain ⟨i0, rest2⟩ := pr
        have hred : mkde P pageSize pool (e :: rest)
            = (.ok (i0 + 1, e :: rest2), tr0) := by
          unfold mkde
          rw [if_neg hp, hrec]
        rw [hred] at h
        simp only [Prod.mk.injEq, Except.ok.injEq] at h
        obtain ⟨d1, e2, d2, hsp, hi, hd1, hpin, hwb, hdir⟩ := ih hrec
        refine ⟨e :: d1, e2, d2, by rw [hsp]; rfl, ?_, ?_, hpin, hwb, ?_⟩
        · rw [← h.1.1, hi]
          simp
        · intro x hx
          rcases List.mem_cons.mp hx with hx | hx
          · subst hx; exact hp
          · exact hd1 x hx
        · rw [← h.1.2, hdir]
          rfl

/-- Split a list at the first element satisfying a property, given some
element satisfies it. -/
theorem exists_first_split {α : Type} (p : α → Prop) [DecidablePred p] :
    ∀ {l : List α}, (∃ x ∈ l, p x) →
    ∃ l1 y l2, l = l1 ++ y :: l2 ∧ p y ∧ ∀ z ∈ l1, ¬ p z := by
  intro l
  induction l with
  | nil => intro h; simp at h
  | cons a rest ih =>
    intro h
    by_cases ha : p a
    · exact ⟨[], a, rest, rfl, ha, by simp⟩
    · have : ∃ x ∈ rest, p x := by
        obtain ⟨x, hx, hpx⟩ := h
        rcases List.mem_cons.mp hx with hx | hx
        · subst hx; exact absurd hpx ha
        · exact ⟨x, hx, hpx⟩
      obtain ⟨l1, y, l2, hsp, hy, hl1⟩ := ih this
      refine ⟨a :: l1, y, l2, by rw [hsp]; rfl, hy, ?_⟩
      intro z hz
      rcases List.mem_cons.mp hz with hz | hz
      · subst hz; exact ha
      · exact hl1 z hz

theorem set_append_len {α : Type} (d1 : List α) (x y : α) (d2 : List α) :
    (d1 ++ x :: d2).set d1.length y = d1 ++ y :: d2 := by
  induction d1 with
  | nil => rfl
  | cons a rest ih => simp only [List.cons_append, List.length_cons,
      List.set_cons_succ, ih]

theorem getD_append_len {α : Type} (d1 : List α) (x : α) (d2 : List α)
    (dflt : α) : (d1 ++ x :: d2).getD d1.length dflt = x := by
  induction d1 with
  | nil => rfl
  | cons a rest ih => simpa using ih

theorem flushScan_entries (P : page_interface) (pageSize : Nat) (pool : Store)
    (page : Nat) :
    ∀ (dir : List directory_entry),
    ∀ e2 ∈ (flushScan P pageSize pool page dir).2.1, ∃ e ∈ dir,
      e2.page = e.page ∧ e2.poolIndex = e.poolIndex ∧
      e2.pinCount = e.pinCount := by
  intro dir
  induction dir with
  | nil => intro e2 he2; simp [flushScan] at he2
  | cons e rest ih =>
    intro e2 he2
    by_cases hc : e.page = page ∧ e.pinCount = 0 ∧ e.dirty = true
    · have hred : (flushScan P pageSize pool page (e :: rest)).2.1
          = (if P.write_page e.page (frameFn pool pageSize e.poolIndex)
              ≠ error.None then { e with dirty := false } else e) :: rest := by
        simp only [flushScan]
        rw [if_pos hc]
      rw [hred] at he2
      rcases List.mem_cons.mp he2 with h2 | h2
      · refine ⟨e, by simp, ?_, ?_, ?_⟩ <;> simp [h2, apply_ite]
      · exact ⟨e2, by simp [h2], rfl, rfl, rfl⟩
    · have hred : (flushScan P pageSize pool page (e :: rest)).2.1
          = e :: (flushScan P pageSize pool page rest).2.1 := by
        simp only [flushScan]
        rw [if_neg hc]
      rw [hred] at he2
      rcases List.mem_cons.mp he2 with h2 | h2
      · exact ⟨e, by simp, by simp [h2], by simp [h2], by simp [h2]⟩
      · obtain ⟨e0, he0, hv⟩ := ih e2 h2
        exact ⟨e0, by simp [he0], hv⟩

theorem ffpScan_entries (P : page_interface) (pageSize : Nat) (pool : Store) :
    ∀ (dir : List directory_entry),
    ∀ e2 ∈ (ffpScan P pageSize pool dir).2.1, ∃ e ∈ dir,
      e2.page = e.page ∧ e2.poolIndex = e.poolIndex ∧
      e2.pinCount = e.pinCount := by
  intro dir
  induction dir with
  | nil => intro e2 he2; simp [ffpScan] at he2
  | cons e rest ih =>
    intro e2 he2
    by_cases hc : e.pinCount = 0 ∧ e.dirty = true
    · by_cases hw : P.write_page e.page (frameFn pool pageSize e.poolIndex)
          = error.None
      · have hred : (ffpScan P pageSize pool (e :: rest)).2.1
            = { e with dirty := false } :: (ffpScan P pageSize pool rest).2.1 := by
          simp only [ffpScan]
          rw [if_pos hc, if_neg (by simpa using hw)]
        rw [hred] at he2
        rcases List.mem_cons.mp he2 with h2 | h2
        · exact ⟨e, by simp, by simp [h2], by simp [h2], by simp [h2]⟩
        · obtain ⟨e0, he0, hv⟩ := ih e2 h2
          exact ⟨e0, by simp [he0], hv⟩
      · have hred : (ffpScan P pageSize pool (e :: rest)).2.1 = e :: rest := by
          simp only [ffpScan]
          rw [if_pos hc, if_pos (by simpa using hw)]
        rw [hred] at he2
        rcases List.mem_cons.mp he2 with h2 | h2
        · exact ⟨e, by simp, by simp [h2], by simp [h2], by simp [h2]⟩
        · exact ⟨e2, by simp [h2], rfl, rfl, rfl⟩
    · have hred : (ffpScan P pageSize pool (e :: rest)).2.1
          = e :: (ffpScan P pageSize pool rest).2.1 := by
        simp only [ffpScan]
        rw [if_neg hc]
      rw [hred] at he2
      rcases List.mem_cons.mp he2 with h2 | h2
      · exact ⟨e, by simp, by simp [h2], by simp [h2], by simp [h2]⟩
      · obtain ⟨e0, he0, hv⟩ := ih e2 h2
        exact ⟨e0, by simp [he0], hv⟩

theorem mem_rotateToEnd {l : List directory_entry} {i : Nat}
    {x : directory_entry} (h : x ∈ rotateToEnd l i) : x ∈ l := by
  unfold rotateToEnd at h
  rcases List.mem_append.mp h with h2 | h2
  · rcases List.mem_append.mp h2 with h3 | h3
    · exact List.mem_of_mem_take h3
    · exact List.mem_of_mem_drop h3
  · exact List.mem_of_mem_drop (List.mem_of_mem_take h2)

theorem rotateToEnd_perm (l : List directory_entry) (i : Nat)
    (h : i < l.length) : (rotateToEnd l i).Perm l := by
  have hdrop : l.drop i = l[i] :: l.drop (i + 1) :=
    List.drop_eq_getElem_cons h
  have htake1 : List.take 1 (l[i] :: l.drop (i + 1)) = [l[i]] := rfl
  have hsplit : l = l.take i ++ l[i] :: l.drop (i + 1) := by
    conv_lhs => rw [← List.take_append_drop i l, hdrop]
  unfold rotateToEnd
  rw [hdrop, htake1]
  conv_rhs => rw [hsplit]
  rw [List.append_assoc]
  exact List.Perm.append_left (l.take i)
    (List.perm_append_singleton l[i] (l.drop (i + 1)))

theorem countP_set_same {p : directory_entry → Bool} :
    ∀ (l : List directory_entry) (i : Nat) (x : directory_entry),
    (∀ dflt, p (l.getD i dflt) = p x) →
    (l.set i x).countP p = l.countP p := by
  intro l
  induction l with
  | nil => intro i x _; rfl
  | cons a rest ih =>
    intro i x hpx
    cases i with
    | zero =>
      have := hpx a
      simp only [List.getD_cons_zero] at this
      simp [List.countP_cons, ← this]
    | succ j =>
      have hrec := ih j x (fun dflt => by
        have := hpx dflt
        simpa using this)
      simp [List.countP_cons, hrec]

theorem countP_pos_of_mem {p : directory_entry → Bool}
    {l : List directory_entry} {x : directory_entry}
    (hx : x ∈ l) (hp : p x = true) : 1 ≤ l.countP p := by
  induction l with
  | nil => simp at hx
  | cons a rest ih =>
    rcases List.mem_cons.mp hx with h | h
    · subst h
      simp [List.countP_cons, hp]
    · have := ih h
      simp only [List.countP_cons]
      omega

theorem scanPin_split_eq {page : Nat} {e : directory_entry}
    {d2 : List directory_entry} :
    ∀ {d1 : List directory_entry}, (∀ x ∈ d1, x.page ≠ page) →
    e.page = page →
    scanPin page (d1 ++ e :: d2)
      = some (d1 ++ { e with pinCount := e.pinCount + 1 } :: d2,
          e.poolIndex) := by
  intro d1
  induction d1 with
  | nil =>
    intro _ he
    show scanPin page (e :: d2) = _
    unfold scanPin
    rw [if_pos he]
    rfl
  | cons x rest ih =>
    intro h he
    have hx : x.page ≠ page := h x (by simp)
    show scanPin page (x :: (rest ++ e :: d2)) = _
    unfold scanPin
    rw [if_neg hx, ih (fun y hy => h y (by simp [hy])) he]
    rfl

theorem loadPage_eq (P : page_interface) (s : page_manager) (id : Nat)
    (d1 : List directory_entry) (e : directory_entry)
    (d2 : List directory_entry)
    (hsp : s.directory = d1 ++ e :: d2)
    (hd1 : ∀ x ∈ d1, x.pinCount ≠ 0) (hpin : e.pinCount = 0)
    (hwb : e.dirty = true →
      P.write_page e.page (frameFn s.pool s.pageSize e.poolIndex)
        = error.None) :
    loadPage P s id =
      (if (P.read_page id (frameFn s.pool s.pageSize e.poolIndex)).1
          = error.None
       then (.ok d1.length,
        { s with
          directory := rotateToEnd
            (d1 ++ (⟨false, id, e.poolIndex, 1⟩ : directory_entry) :: d2)
            d1.length
          pool := blit s.pool (s.pageSize * e.poolIndex)
            (P.read_page id (frameFn s.pool s.pageSize e.poolIndex)).2
            s.pageSize },
        (if e.dirty then [.writeEv e.page] else []) ++ [.readEv id])
       else (.error (P.read_page id
            (frameFn s.pool s.pageSize e.poolIndex)).1,
        { s with
          directory :=
            d1 ++ (⟨false, id, e.poolIndex, 1⟩ : directory_entry) :: d2
          pool := blit s.pool (s.pageSize * e.poolIndex)
            (P.read_page id (frameFn s.pool s.pageSize e.poolIndex)).2
            s.pageSize },
        (if e.dirty then [.writeEv e.page] else []) ++ [.readEv id])) := by
  unfold loadPage makeDirEntry
  rw [hsp, mkde_ok_split P s.pageSize s.pool hd1 hpin hwb]
  simp only [getD_append_len, set_append_len]

theorem newPinnedPage_eq (P : page_interface) (s : page_manager)
    (d1 : List directory_entry) (e : directory_entry)
    (d2 : List directory_entry)
    (hsp : s.directory = d1 ++ e :: d2)
    (hd1 : ∀ x ∈ d1, x.pinCount ≠ 0) (hpin : e.pinCount = 0)
    (hwb : e.dirty = true →
      P.write_page e.page (frameFn s.pool s.pageSize e.poolIndex)
        = error.None) :
    newPinnedPage P s =
      (match P.alloc_page s.pageSize with
       | .error err => (.error err,
          { s with directory := d1 ++ ({ e with
              pinCount := 1
              dirty := false } : directory_entry) :: d2 },
          (if e.dirty then [.writeEv e.page] else []) ++ [.allocEv])
       | .ok pid => (.ok ⟨pid, s.pageSize * e.poolIndex, s.pageSize, true⟩,
          { s with
            directory := rotateToEnd
              (d1 ++ (⟨true, pid, e.poolIndex, 1⟩ : directory_entry) :: d2)
              d1.length
            pool := writeFooter
              (zeroFill s.pool (s.pageSize * e.poolIndex) s.pageSize)
              (s.pageSize * (e.poolIndex + 1) - footerSize)
              ⟨0, s.pageSize - footerSize, 0, 0⟩ },
          (if e.dirty then [.writeEv e.page] else []) ++ [.allocEv])) := by
  unfold newPinnedPage makeDirEntry
  rw [hsp, mkde_ok_split P s.pageSize s.pool hd1 hpin hwb]
  simp only [getD_append_len, set_append_len]

theorem pinPage_hit_eq (P : page_interface) (s : page_manager) (id : Nat)
    (d1 : List directory_entry) (e : directory_entry)
    (d2 : List directory_entry)
    (hsp : s.directory = d1 ++ e :: d2)
    (hd1 : ∀ x ∈ d1, x.page ≠ id) (he : e.page = id) :
    pinPage P s id
      = (.ok ⟨id, s.pageSize * e.poolIndex, s.pageSize, false⟩,
        { s with directory := d1 ++ { e with
            pinCount := e.pinCount + 1 } :: d2 }, []) := by
  unfold pinPage
  rw [hsp, scanPin_split_eq hd1 he]

theorem mkde_full (P : page_interface) (pageSize : Nat) (pool : Store) :
    ∀ {dir : List directory_entry}, (∀ x ∈ dir, x.pinCount ≠ 0) →
    mkde P pageSize pool dir = (.error .None, []) := by
  intro dir
  induction dir with
  | nil => intro _; rfl
  | cons e rest ih =>
    intro h
    unfold mkde
    rw [if_neg (h e (by simp)), ih (fun x hx => h x (by simp [hx]))]

theorem mkde_err_split (P : page_interface) (pageSize : Nat) (pool : Store)
    {e : directory_entry} {d2 : List directory_entry} :
    ∀ {d1 : List directory_entry}, (∀ x ∈ d1, x.pinCount ≠ 0) →
    e.pinCount = 0 → e.dirty = true →
    P.write_page e.page (frameFn pool pageSize e.poolIndex) ≠ error.None →
    mkde P pageSize pool (d1 ++ e :: d2)
      = (.error (P.write_page e.page (frameFn pool pageSize e.poolIndex)),
        [.writeEv e.page]) := by
  intro d1
  induction d1 with
  | nil =>
    intro _ hpin hd hw
    show mkde P pageSize pool (e :: d2) = _
    unfold mkde
    rw [if_pos hpin, if_pos (by simp [hd]), if_pos (by simpa using hw)]
  | cons x rest ih =>
    intro h hpin hd hw
    show mkde P pageSize pool (x :: (rest ++ e :: d2)) = _
    unfold mkde
    rw [if_neg (h x (by simp)), ih (fun y hy => h y (by simp [hy])) hpin hd hw]

/-! ### The C10 leak invariant -/

/-- Every directory entry occupying pool frame pi is a never-used entry
(page id zero) whose pin count is at least one. -/
def zeroPinned (pi : Nat) (s : page_manager) : Prop :=
  ∀ e ∈ s.directory, e.poolIndex = pi → e.page = 0 ∧ 1 ≤ e.pinCount

theorem zeroPinned_pool (pi : Nat) (s : page_manager) (m : Store)
    (h : zeroPinned pi s) : zeroPinned pi { s with pool := m } := h

theorem zeroPinned_loadPage (P : page_interface) (pi : Nat)
    (s : page_manager) (id : Nat) (h : zeroPinned pi s) :
    zeroPinned pi (loadPage P s id).2.1 := by
  by_cases hfree : ∃ x ∈ s.directory, x.pinCount = 0
  · obtain ⟨d1, e, d2, hsp, hpin, hd1⟩ :=
      exists_first_split (fun x => x.pinCount = 0) hfree
    have hpin2 : e.pinCount = 0 := hpin
    have hπ : e.poolIndex ≠ pi := by
      intro hc
      have := h e (by rw [hsp]; simp) hc
      omega
    by_cases hwb : e.dirty = true →
        P.write_page e.page (frameFn s.pool s.pageSize e.poolIndex)
          = error.None
    · rw [loadPage_eq P s id d1 e d2 hsp hd1 hpin hwb]
      by_cases hr : (P.read_page id
          (frameFn s.pool s.pageSize e.poolIndex)).1 = error.None
      · rw [if_pos hr]
        intro e2 he2 hpi
        have he2m := mem_rotateToEnd he2
        rcases List.mem_append.mp he2m with h2 | h2
        · exact h e2 (by rw [hsp]; exact List.mem_append.mpr (Or.inl h2)) hpi
        · rcases List.mem_cons.mp h2 with h2 | h2
          · subst h2
            exact absurd hpi hπ
          · exact h e2 (by rw [hsp]; simp [h2]) hpi
      · rw [if_neg hr]
        intro e2 he2 hpi
        rcases List.mem_append.mp he2 with h2 | h2
        · exact h e2 (by rw [hsp]; exact List.mem_append.mpr (Or.inl h2)) hpi
        · rcases List.mem_cons.mp h2 with h2 | h2
          · subst h2
            exact absurd hpi hπ
          · exact h e2 (by rw [hsp]; simp [h2]) hpi
    · have hd : e.dirty = true := by
        by_contra hc
        exact hwb (fun hcc => absurd hcc hc)
      have hw : P.write_page e.page (frameFn s.pool s.pageSize e.poolIndex)
          ≠ error.None := fun hc => hwb (fun _ => hc)
      have : loadPage P s id
          = (.error (P.write_page e.page
              (frameFn s.pool s.pageSize e.poolIndex)), s,
            [.writeEv e.page]) := by
        unfold loadPage makeDirEntry
        rw [hsp, mkde_err_split P s.pageSize s.pool hd1 hpin hd hw]
      rw [this]
      exact h
  · have hall : ∀ x ∈ s.directory, x.pinCount ≠ 0 := by
      intro x hx hc
      exact hfree ⟨x, hx, hc⟩
    have : loadPage P s id = (.error .None, s, []) := by
      unfold loadPage makeDirEntry
      rw [mkde_full P s.pageSize s.pool hall]
    rw [this]
    exact h

theorem zeroPinned_pinPage (P : page_interface) (pi : Nat)
    (s : page_manager) (id : Nat) (h : zeroPinned pi s) :
    zeroPinned pi (pinPage P s id).2.1 := by
  by_cases hex : ∃ x ∈ s.directory, x.page = id
  · obtain ⟨d1, e, d2, hsp, he, hd1⟩ :=
      exists_first_split (fun x => x.page = id) hex
    rw [pinPage_hit_eq P s id d1 e d2 hsp hd1 he]
    intro e2 he2 hpi
    rcases List.mem_append.mp he2 with h2 | h2
    · exact h e2 (by rw [hsp]; exact List.mem_append.mpr (Or.inl h2)) hpi
    · rcases List.mem_cons.mp h2 with h2 | h2
      · subst h2
        have := h e (by rw [hsp]; simp) hpi
        exact ⟨this.1, Nat.le_succ_of_le this.2⟩
      · exact h e2 (by rw [hsp]; simp [h2]) hpi
  · have hmiss : ∀ x ∈ s.directory, x.page ≠ id := by
      intro x hx hc
      exact hex ⟨x, hx, hc⟩
    have hz := zeroPinned_loadPage P pi s id h
    unfold pinPage
    rw [scanPin_eq_none hmiss]
    rcases hl : loadPage P s id with ⟨res, s1, tr⟩
    rw [hl] at hz
    rcases res with err | i
    · exact hz
    · exact hz

theorem zeroPinned_dropHandle (P : page_interface) (pi : Nat)
    (s : page_manager) (hd : pinned_page) (h : zeroPinned pi s) :
    zeroPinned pi (dropHandle s hd) := by
  unfold dropHandle
  by_cases h0 : hd.pageID ≠ 0
  · rw [if_pos h0]
    by_cases hex : ∃ x ∈ s.directory, x.page = hd.pageID
    · obtain ⟨d1, e, d2, hsp, he, hd1⟩ :=
        exists_first_split (fun x => x.page = hd.pageID) hex
      rw [hsp, unpinScan_split hd1 he]
      intro e2 he2 hpi
      rcases List.mem_append.mp he2 with h2 | h2
      · exact h e2 (by rw [hsp]; exact List.mem_append.mpr (Or.inl h2)) hpi
      · rcases List.mem_cons.mp h2 with h2 | h2
        · subst h2
          have hz := h e (by rw [hsp]; simp) hpi
          rw [he] at hz
          exact absurd hz.1 h0
        · exact h e2 (by rw [hsp]; simp [h2]) hpi
    · have hmiss : ∀ x ∈ s.directory, x.page ≠ hd.pageID := by
        intro x hx hc
        exact hex ⟨x, hx, hc⟩
      rw [unpinScan_eq_self hmiss]
      exact h
  · rw [if_neg h0]
    exact h

theorem zeroPinned_newPinnedPage (P : page_interface) (pi : Nat)
    (s : page_manager) (h : zeroPinned pi s) :
    zeroPinned pi (newPinnedPage P s).2.1 := by
  by_cases hfree : ∃ x ∈ s.directory, x.pinCount = 0
  · obtain ⟨d1, e, d2, hsp, hpin, hd1⟩ :=
      exists_first_split (fun x => x.pinCount = 0) hfree
    have hpin2 : e.pinCount = 0 := hpin
    have hπ : e.poolIndex ≠ pi := by
      intro hc
      have := h e (by rw [hsp]; simp) hc
      omega
    by_cases hwb : e.dirty = true →
        P.write_page e.page (frameFn s.pool s.pageSize e.poolIndex)
          = error.None
    · rw [newPinnedPage_eq P s d1 e d2 hsp hd1 hpin hwb]
      rcases P.alloc_page s.pageSize with err | pid
      · intro e2 he2 hpi
        rcases List.mem_append.mp he2 with h2 | h2
        · exact h e2 (by rw [hsp]; exact List.mem_append.mpr (Or.inl h2)) hpi
        · rcases List.mem_cons.mp h2 with h2 | h2
          · subst h2
            exact absurd hpi hπ
          · exact h e2 (by rw [hsp]; simp [h2]) hpi
      · intro e2 he2 hpi
        have he2m := mem_rotateToEnd he2
        rcases List.mem_append.mp he2m with h2 | h2
        · exact h e2 (by rw [hsp]; exact List.mem_append.mpr (Or.inl h2)) hpi
        · rcases List.mem_cons.mp h2 with h2 | h2
          · subst h2
            exact absurd hpi hπ
          · exact h e2 (by rw [hsp]; simp [h2]) hpi
    · have hd : e.dirty = true := by
        by_contra hc
        exact hwb (fun hcc => absurd hcc hc)
      have hw : P.write_page e.page (frameFn s.pool s.pageSize e.poolIndex)
          ≠ error.None := fun hc => hwb (fun _ => hc)
      have : newPinnedPage P s
          = (.error (P.write_page e.page
              (frameFn s.pool s.pageSize e.poolIndex)), s,
            [.writeEv e.page]) := by
        unfold newPinnedPage makeDirEntry
        rw [hsp, mkde_err_split P s.pageSize s.pool hd1 hpin hd hw]
      rw [this]
      exact h
  · have hall : ∀ x ∈ s.directory, x.pinCount ≠ 0 := by
      intro x hx hc
      exact hfree ⟨x, hx, hc⟩
    have : newPinnedPage P s = (.error .None, s, []) := by
      unfold newPinnedPage makeDirEntry
      rw [mkde_full P s.pageSize s.pool hall]
    rw [this]
    exact h

theorem zeroPinned_flushPage (P : page_interface) (pi : Nat)
    (s : page_manager) (id : Nat) (h : zeroPinned pi s) :
    zeroPinned pi (flushPage P s id).2.1 := by
  intro e2 he2 hpi
  obtain ⟨e, he, hpg, hpl, hpc⟩ :=
    flushScan_entries P s.pageSize s.pool id s.directory e2 he2
  have := h e he (by rw [← hpl]; exact hpi)
  rw [hpg, hpc]
  exact this

theorem zeroPinned_flushFreePages (P : page_interface) (pi : Nat)
    (s : page_manager) (h : zeroPinned pi s) :
    zeroPinned pi (flushFreePages P s).2.1 := by
  intro e2 he2 hpi
  obtain ⟨e, he, hpg, hpl, hpc⟩ :=
    ffpScan_entries P s.pageSize s.pool s.directory e2 he2
  have := h e he (by rw [← hpl]; exact hpi)
  rw [hpg, hpc]
  exact this

theorem zeroPinned_addRecordLoop (P : page_interface) (pi : Nat)
    (data : List Nat) (recordSize : Nat) :
    ∀ (fuel : Nat) (s : page_manager) (page : pinned_page) (pageid : Nat)
      (acc : List io_event), zeroPinned pi s →
    ∀ r s1 tr, addRecordLoop P data recordSize fuel s page pageid acc
      = some (r, s1, tr) → zeroPinned pi s1 := by
  intro fuel
  induction fuel with
  | zero => intro s page pageid acc _ r s1 tr hl; simp [addRecordLoop] at hl
  | succ fuel ih =>
    intro s page pageid acc h r s1 tr hl
    by_cases hg : (readFooter s.pool
        (page.base + page.size - footerSize)).freeSpace
        < recordSize + szSize
    · by_cases hnp : (readFooter s.pool
          (page.base + page.size - footerSize)).next_page = 0
      · rcases hnew : newPinnedPage P s with ⟨res, s2, tr1⟩
        have hz2 : zeroPinned pi s2 := by
          have := zeroPinned_newPinnedPage P pi s h
          rw [hnew] at this
          exact this
        rcases res with err | newPg
        · have hred : addRecordLoop P data recordSize (fuel + 1) s page
              pageid acc
              = some (.error err, dropHandle s2 page, acc ++ tr1) := by
            simp only [addRecordLoop]
            rw [if_pos hg, if_pos hnp, hnew]
          rw [hred] at hl
          simp only [Option.some.injEq, Prod.mk.injEq] at hl
          rw [← hl.2.1]
          exact zeroPinned_dropHandle P pi s2 page hz2
        · have hred : addRecordLoop P data recordSize (fuel + 1) s page
              pageid acc
              = addRecordLoop P data recordSize fuel
                (dropHandle { s2 with
                  pool := writeFooter s2.pool
                    (page.base + page.size - footerSize)
                    { readFooter s.pool (page.base + page.size - footerSize)
                      with next_page := newPg.pageID } } page)
                newPg newPg.pageID (acc ++ tr1) := by
            simp only [addRecordLoop]
            rw [if_pos hg, if_pos hnp, hnew]
          rw [hred] at hl
          exact ih _ _ _ _
            (zeroPinned_dropHandle P pi _ page
              (zeroPinned_pool pi s2 _ hz2)) r s1 tr hl
      · rcases hpin : pinPage P s (readFooter s.pool
            (page.base + page.size - footerSize)).next_page
          with ⟨res, s2, tr1⟩
        have hz2 : zeroPinned pi s2 := by
          have := zeroPinned_pinPage P pi s
            (readFooter s.pool
              (page.base + page.size - footerSize)).next_page h
          rw [hpin] at this
          exact this
        rcases res with err | nextPg
        · have hred : addRecordLoop P data recordSize (fuel + 1) s page
              pageid acc
              = some (.error err, dropHandle s2 page, acc ++ tr1) := by
            simp only [addRecordLoop]
            rw [if_pos hg, if_neg hnp, hpin]
          rw [hred] at hl
          simp only [Option.some.injEq, Prod.mk.injEq] at hl
          rw [← hl.2.1]
          exact zeroPinned_dropHandle P pi s2 page hz2
        · have hred : addRecordLoop P data recordSize (fuel + 1) s page
              pageid acc
              = addRecordLoop P data recordSize fuel (dropHandle s2 page)
                nextPg (readFooter s.pool
                  (page.base + page.size - footerSize)).next_page
                (acc ++ tr1) := by
            simp only [addRecordLoop]
            rw [if_pos hg, if_neg hnp, hpin]
          rw [hred] at hl
          exact ih _ _ _ _
            (zeroPinned_dropHandle P pi s2 page hz2) r s1 tr hl
    · have hred : addRecordLoop P data recordSize (fuel + 1) s page
          pageid acc
          = some (.ok (addRecordOnPage s.pool page pageid data recordSize).2,
            dropHandle { s with
              pool := (addRecordOnPage s.pool page pageid data
                recordSize).1 } { page with dirty := true }, acc) := by
        simp only [addRecordLoop]
        rw [if_neg hg]
      rw [hred] at hl
      simp only [Option.some.injEq, Prod.mk.injEq] at hl
      rw [← hl.2.1]
      exact zeroPinned_dropHandle P pi _ _ h

theorem zeroPinned_add_record (P : page_interface) (pi : Nat)
    (s : page_manager) (pageid : Nat) (data : List Nat)
    (recordSize fuel : Nat) (h : zeroPinned pi s) :
    ∀ r s1 tr, add_record P s pageid data recordSize fuel
      = some (r, s1, tr) → zeroPinned pi s1 := by
  intro r s1 tr hl
  unfold add_record at hl
  by_cases hg : page_data_size s - szSize < recordSize
  · rw [if_pos hg] at hl
    simp only [Option.some.injEq, Prod.mk.injEq] at hl
    rw [← hl.2.1]
    exact h
  · rw [if_neg hg] at hl
    rcases hpin : pinPage P s pageid with ⟨res, s2, tr1⟩
    rw [hpin] at hl
    have hz2 : zeroPinned pi s2 := by
      have := zeroPinned_pinPage P pi s pageid h
      rw [hpin] at this
      exact this
    rcases res with err | page
    · simp only [Option.some.injEq, Prod.mk.injEq] at hl
      rw [← hl.2.1]
      exact hz2
    · exact zeroPinned_addRecordLoop P pi data recordSize fuel s2 page
        pageid tr1 hz2 r s1 tr hl

theorem zeroPinned_step (P : page_interface) (pi : Nat) (c : config)
    (o : op) (h : zeroPinned pi c.1) : zeroPinned pi (step P c o).1 := by
  obtain ⟨s, hs⟩ := c
  cases o with
  | pinOp id =>
    show zeroPinned pi (match pinPage P s id with
      | (.ok h, s1, _) => (s1, h :: hs)
      | (.error _, s1, _) => (s1, hs)).1
    have hz := zeroPinned_pinPage P pi s id h
    rcases hp : pinPage P s id with ⟨res, s1, tr⟩
    rw [hp] at hz
    rcases res with err | hdl
    · exact hz
    · exact hz
  | dropOp k =>
    show zeroPinned pi (match hs.get? k with
      | some hd => (dropHandle s hd, hs.eraseIdx k)
      | none => (s, hs)).1
    rcases hs.get? k with _ | hd
    · exact h
    · exact zeroPinned_dropHandle P pi s hd h
  | flushOp id => exact zeroPinned_flushPage P pi s id h
  | flushAllOp => exact zeroPinned_flushFreePages P pi s h
  | newPageOp =>
    show zeroPinned pi (match newPinnedPage P s with
      | (.ok h, s1, _) => (s1, h :: hs)
      | (.error _, s1, _) => (s1, hs)).1
    have hz := zeroPinned_newPinnedPage P pi s h
    rcases hp : newPinnedPage P s with ⟨res, s1, tr⟩
    rw [hp] at hz
    rcases res with err | hdl
    · exact hz
    · exact hz
  | addRecOp pageid data recordSize fuel =>
    show zeroPinned pi (match add_record P s pageid data recordSize fuel with
      | some (_, s1, _) => (s1, hs)
      | none => (s, hs)).1
    rcases ha : add_record P s pageid data recordSize fuel with _ | ⟨r, s1, tr⟩
    · exact h
    · exact zeroPinned_add_record P pi s pageid data recordSize fuel h
        r s1 tr ha

theorem zeroPinned_steps (P : page_interface) (pi : Nat) :
    ∀ (ops : List op) (c : config), zeroPinned pi c.1 →
    zeroPinned pi (steps P c ops).1 := by
  intro ops
  induction ops with
  | nil => intro c h; exact h
  | cons o rest ih =>
    intro c h
    exact ih (step P c o) (zeroPinned_step P pi c o h)

/-! ### The C9 leak invariant -/

/-- The page id, pool index and pin count of a directory entry. -/
def epp (e : directory_entry) : Nat × Nat × Nat :=
  (e.page, e.poolIndex, e.pinCount)

/-- The number of live handles onto page t. -/
def cnt (t : Nat) (hs : List pinned_page) : Nat :=
  hs.countP (fun h => h.pageID == t)

/-- The directory holds exactly one entry for page t; it sits on pool
frame pi and its pin count exceeds the number n of live handles onto
page t.  With n the caller's handle count this pins the entry forever
once n = 0 pins fewer than pinCount. -/
def entryLeak (t pi n : Nat) (dir : List directory_entry) : Prop :=
  dir.countP (fun e => e.page == t) = 1 ∧
  ∀ e ∈ dir, e.page = t → e.poolIndex = pi ∧ 1 + n ≤ e.pinCount

/-- entryLeak of a configuration, counting the caller's live handles. -/
def leakedPinned (t pi : Nat) (c : config) : Prop :=
  entryLeak t pi (cnt t c.2) c.1.directory

theorem flushScan_map (P : page_interface) (pageSize : Nat) (pool : Store)
    (page : Nat) : ∀ (dir : List directory_entry),
    ((flushScan P pageSize pool page dir).2.1).map epp = dir.map epp := by
  intro dir
  induction dir with
  | nil => rfl
  | cons e rest ih =>
    by_cases hc : e.page = page ∧ e.pinCount = 0 ∧ e.dirty = true
    · have hred : (flushScan P pageSize pool page (e :: rest)).2.1
          = (if P.write_page e.page (frameFn pool pageSize e.poolIndex)
              ≠ error.None then { e with dirty := false } else e) :: rest := by
        simp only [flushScan]
        rw [if_pos hc]
      rw [hred]
      simp [epp, apply_ite]
    · have hred : (flushScan P pageSize pool page (e :: rest)).2.1
          = e :: (flushScan P pageSize pool page rest).2.1 := by
        simp only [flushScan]
        rw [if_neg hc]
      rw [hred]
      simp [ih]

theorem ffpScan_map (P : page_interface) (pageSize : Nat) (pool : Store) :
    ∀ (dir : List directory_entry),
    ((ffpScan P pageSize pool dir).2.1).map epp = dir.map epp := by
  intro dir
  induction dir with
  | nil => rfl
  | cons e rest ih =>
    by_cases hc : e.pinCount = 0 ∧ e.dirty = true
    · by_cases hw : P.write_page e.page (frameFn pool pageSize e.poolIndex)
          = error.None
      · have hred : (ffpScan P pageSize pool (e :: rest)).2.1
            = { e with dirty := false }
              :: (ffpScan P pageSize pool rest).2.1 := by
          simp only [ffpScan]
          rw [if_pos hc, if_neg (by simpa using hw)]
        rw [hred]
        simp only [List.map_cons, ih]
        rfl
      · have hred : (ffpScan P pageSize pool (e :: rest)).2.1
            = e :: rest := by
          simp only [ffpScan]
          rw [if_pos hc, if_pos (by simpa using hw)]
        rw [hred]
    · have hred : (ffpScan P pageSize pool (e :: rest)).2.1
          = e :: (ffpScan P pageSize pool rest).2.1 := by
        simp only [ffpScan]
        rw [if_neg hc]
      rw [hred]
      simp [ih]

theorem entryLeak_of_map {t pi n : Nat} {dir dir2 : List directory_entry}
    (hm : dir2.map epp = dir.map epp) (h : entryLeak t pi n dir) :
    entryLeak t pi n dir2 := by
  constructor
  · have h1 : dir2.countP (fun e => e.page == t)
        = (dir2.map epp).countP (fun pr => pr.1 == t) := by
      rw [List.countP_map]
      rfl
    have h2 : dir.countP (fun e => e.page == t)
        = (dir.map epp).countP (fun pr => pr.1 == t) := by
      rw [List.countP_map]
      rfl
    rw [h1, hm, ← h2]
    exact h.1
  · intro e2 he2 hp
    have hmem : epp e2 ∈ dir.map epp := by
      rw [← hm]
      exact List.mem_map_of_mem epp he2
    obtain ⟨e0, he0, heq⟩ := List.mem_map.mp hmem
    have hfields : e0.page = e2.page ∧ e0.poolIndex = e2.poolIndex ∧
        e0.pinCount = e2.pinCount := by
      simpa [epp, Prod.ext_iff] using heq
    have := h.2 e0 he0 (by rw [hfields.1, hp])
    refine ⟨?_, ?_⟩
    · rw [← hfields.2.1]
      exact this.1
    · rw [← hfields.2.2]
      exact this.2

theorem entryLeak_of_perm {t pi n : Nat} {dir dir2 : List directory_entry}
    (hp : dir2.Perm dir) (h : entryLeak t pi n dir) :
    entryLeak t pi n dir2 :=
  ⟨by rw [hp.countP_eq]; exact h.1,
   fun e2 he2 hpg => h.2 e2 (hp.mem_iff.mp he2) hpg⟩

theorem countP_middle_congr {p : directory_entry → Bool}
    (d1 d2 : List directory_entry) (e2 e : directory_entry)
    (h : p e2 = p e) :
    (d1 ++ e2 :: d2).countP p = (d1 ++ e :: d2).countP p := by
  simp [List.countP_append, List.countP_cons, h]

theorem get_some_split {α : Type} :
    ∀ (k : Nat) (l : List α) (x : α), l.get? k = some x →
    ∃ u v, l = u ++ x :: v ∧ u.length = k ∧ l.eraseIdx k = u ++ v := by
  intro k
  induction k with
  | zero =>
    intro l x h
    cases l with
    | nil => simp at h
    | cons a rest =>
      have ha : a = x := by simpa using h
      exact ⟨[], rest, by simp [ha], rfl, rfl⟩
  | succ k ih =>
    intro l x h
    cases l with
    | nil => simp at h
    | cons a rest =>
      obtain ⟨u, v, h1, h2, h3⟩ := ih rest x (by simpa using h)
      refine ⟨a :: u, v, by rw [List.cons_append, ← h1], by simp [h2], ?_⟩
      rw [List.eraseIdx_cons_succ, h3]
      rfl

theorem pinPage_ok_pageID (P : page_interface) (s : page_manager)
    (id : Nat) (hd : pinned_page) :
    (pinPage P s id).1 = .ok hd → hd.pageID = id := by
  unfold pinPage
  rcases scanPin id s.directory with _ | ⟨dir2, pi2⟩
  · rcases loadPage P s id with ⟨res, s2, tr2⟩
    rcases res with err | i
    · intro h
      exact absurd h (by simp)
    · intro h
      have h2 : (⟨id, s.pageSize * ((s2.directory.getD i
          ⟨false, 0, 0, 0⟩).poolIndex), s.pageSize, false⟩ : pinned_page)
          = hd := by
        simpa using h
      rw [← h2]
  · intro h
    have h2 : (⟨id, s.pageSize * pi2, s.pageSize, false⟩ : pinned_page)
        = hd := by
      simpa using h
    rw [← h2]

theorem newPinnedPage_ok_pageID (P : page_interface) (s : page_manager)
    (hd : pinned_page) :
    (newPinnedPage P s).1 = .ok hd →
    P.alloc_page s.pageSize = .ok hd.pageID := by
  unfold newPinnedPage
  rcases makeDirEntry P s with ⟨res, s1, tr⟩
  rcases res with err | i
  · intro h
    exact absurd h (by simp)
  · rcases halc : P.alloc_page s.pageSize with err | pid
    · intro h
      exact absurd h (by simp)
    · intro h
      have h2 : (⟨pid, s.pageSize * ((s1.directory.getD i
          ⟨false, 0, 0, 0⟩).poolIndex), s.pageSize, true⟩ : pinned_page)
          = hd := by
        simpa using h
      rw [← h2]

theorem entryLeak_stamp {t pi n : Nat} {d1 d2 : List directory_entry}
    {e e2 : directory_entry} (h : entryLeak t pi n (d1 ++ e :: d2))
    (hpe : (e2.page == t) = (e.page == t)) (he2t : e2.page ≠ t) :
    entryLeak t pi n (d1 ++ e2 :: d2) := by
  constructor
  · rw [countP_middle_congr d1 d2 e2 e hpe]
    exact h.1
  · intro x hx hxt
    rcases List.mem_append.mp hx with h2 | h2
    · exact h.2 x (List.mem_append.mpr (Or.inl h2)) hxt
    · rcases List.mem_cons.mp h2 with h2 | h2
      · subst h2
        exact absurd hxt he2t
      · exact h.2 x (by simp [h2]) hxt

theorem entryLeak_loadPage (P : page_interface) (t pi n : Nat)
    (s : page_manager) (id : Nat) (hne : id ≠ t)
    (h : entryLeak t pi n s.directory) :
    entryLeak t pi n ((loadPage P s id).2.1).directory := by
  by_cases hfree : ∃ x ∈ s.directory, x.pinCount = 0
  · obtain ⟨d1, e, d2, hsp, hpin, hd1⟩ :=
      exists_first_split (fun x => x.pinCount = 0) hfree
    have hpin2 : e.pinCount = 0 := hpin
    have het : e.page ≠ t := by
      intro hc
      have := h.2 e (by rw [hsp]; simp) hc
      omega
    have hpe : ((⟨false, id, e.poolIndex, 1⟩ : directory_entry).page == t)
        = (e.page == t) := by
      show (id == t) = (e.page == t)
      rw [beq_eq_false_iff_ne.mpr hne, beq_eq_false_iff_ne.mpr het]
    have h2 : entryLeak t pi n
        (d1 ++ (⟨false, id, e.poolIndex, 1⟩ : directory_entry) :: d2) := by
      rw [hsp] at h
      exact entryLeak_stamp h hpe hne
    by_cases hwb : e.dirty = true →
        P.write_page e.page (frameFn s.pool s.pageSize e.poolIndex)
          = error.None
    · rw [loadPage_eq P s id d1 e d2 hsp hd1 hpin hwb]
      by_cases hr : (P.read_page id
          (frameFn s.pool s.pageSize e.poolIndex)).1 = error.None
      · rw [if_pos hr]
        show entryLeak t pi n (rotateToEnd
          (d1 ++ (⟨false, id, e.poolIndex, 1⟩ : directory_entry) :: d2)
          d1.length)
        refine entryLeak_of_perm (rotateToEnd_perm _ _ ?_) h2
        rw [List.length_append, List.length_cons]
        omega
      · rw [if_neg hr]
        exact h2
    · have hd : e.dirty = true := by
        by_contra hc
        exact hwb (fun hcc => absurd hcc hc)
      have hw : P.write_page e.page (frameFn s.pool s.pageSize e.poolIndex)
          ≠ error.None := fun hc => hwb (fun _ => hc)
      have heq : loadPage P s id
          = (.error (P.write_page e.page
              (frameFn s.pool s.pageSize e.poolIndex)), s,
            [.writeEv e.page]) := by
        unfold loadPage makeDirEntry
        rw [hsp, mkde_err_split P s.pageSize s.pool hd1 hpin hd hw]
      rw [heq]
      exact h
  · have hall : ∀ x ∈ s.directory, x.pinCount ≠ 0 := by
      intro x hx hc
      exact hfree ⟨x, hx, hc⟩
    have heq : loadPage P s id = (.error .None, s, []) := by
      unfold loadPage makeDirEntry
      rw [mkde_full P s.pageSize s.pool hall]
    rw [heq]
    exact h

theorem entryLeak_pinPage_ne (P : page_interface) (t pi n : Nat)
    (s : page_manager) (id : Nat) (hne : id ≠ t)
    (h : entryLeak t pi n s.directory) :
    entryLeak t pi n ((pinPage P s id).2.1).directory := by
  by_cases hex : ∃ x ∈ s.directory, x.page = id
  · obtain ⟨d1, e, d2, hsp, he, hd1⟩ :=
      exists_first_split (fun x => x.page = id) hex
    have he2 : e.page = id := he
    rw [pinPage_hit_eq P s id d1 e d2 hsp hd1 he2]
    show entryLeak t pi n
      (d1 ++ { e with pinCount := e.pinCount + 1 } :: d2)
    rw [hsp] at h
    exact entryLeak_stamp h rfl (by show e.page ≠ t; rw [he2]; exact hne)
  · have hmiss : ∀ x ∈ s.directory, x.page ≠ id := by
      intro x hx hc
      exact hex ⟨x, hx, hc⟩
    have hz := entryLeak_loadPage P t pi n s id hne h
    unfold pinPage
    rw [scanPin_eq_none hmiss]
    rcases hl : loadPage P s id with ⟨res, s1, tr⟩
    rw [hl] at hz
    rcases res with err | i
    · exact hz
    · exact hz

theorem entryLeak_pinPage_hit_t (P : page_interface) (t pi n : Nat)
    (s : page_manager) (h : entryLeak t pi n s.directory) :
    ∃ hd s1, pinPage P s t = (.ok hd, s1, []) ∧ hd.pageID = t ∧
      entryLeak t pi (n + 1) s1.directory := by
  have hex : ∃ x ∈ s.directory, x.page = t := by
    have hc1 := h.1
    have hpos : 0 < s.directory.countP (fun e => e.page == t) := by omega
    obtain ⟨x, hx, hpx⟩ := List.countP_pos_iff.mp hpos
    exact ⟨x, hx, by simpa using hpx⟩
  obtain ⟨d1, e, d2, hsp, he, hd1⟩ :=
    exists_first_split (fun x => x.page = t) hex
  have he2 : e.page = t := he
  have hd1' : ∀ x ∈ d1, x.page ≠ t := hd1
  refine ⟨⟨t, s.pageSize * e.poolIndex, s.pageSize, false⟩,
    { s with directory := d1 ++ { e with
        pinCount := e.pinCount + 1 } :: d2 },
    pinPage_hit_eq P s t d1 e d2 hsp hd1' he2, rfl, ?_⟩
  show entryLeak t pi (n + 1)
    (d1 ++ { e with pinCount := e.pinCount + 1 } :: d2)
  rw [hsp] at h
  constructor
  · rw [@countP_middle_congr (fun y => y.page == t) d1 d2
      { e with pinCount := e.pinCount + 1 } e rfl]
    exact h.1
  · intro x hx hxt
    rcases List.mem_append.mp hx with h2 | h2
    · exact absurd hxt (hd1' x h2)
    · rcases List.mem_cons.mp h2 with h2 | h2
      · subst h2
        have hme := h.2 e (by simp) he2
        show e.poolIndex = pi ∧ 1 + (n + 1) ≤ e.pinCount + 1
        exact ⟨hme.1, by omega⟩
      · have hpx : (x.page == t) = true := by simpa using hxt
        have hone := @countP_pos_of_mem (fun y => y.page == t) d2 x h2 hpx
        have hcnt := h.1
        rw [List.countP_append, List.countP_cons] at hcnt
        have het : ((fun y => y.page == t) e) = true := by simpa using he2
        simp only [het, if_true] at hcnt
        omega

theorem entryLeak_dropHandle_ne {t pi n : Nat} (s : page_manager)
    (hd : pinned_page) (hne : hd.pageID ≠ t)
    (h : entryLeak t pi n s.directory) :
    entryLeak t pi n (dropHandle s hd).directory := by
  unfold dropHandle
  by_cases h0 : hd.pageID ≠ 0
  · rw [if_pos h0]
    by_cases hex : ∃ x ∈ s.directory, x.page = hd.pageID
    · obtain ⟨d1, e, d2, hsp, he, hd1⟩ :=
        exists_first_split (fun x => x.page = hd.pageID) hex
      have he2 : e.page = hd.pageID := he
      show entryLeak t pi n (unpinScan hd.pageID hd.dirty s.directory)
      rw [hsp, unpinScan_split hd1 he2]
      rw [hsp] at h
      exact entryLeak_stamp h rfl (by show e.page ≠ t; rw [he2]; exact hne)
    · have hmiss : ∀ x ∈ s.directory, x.page ≠ hd.pageID := by
        intro x hx hc
        exact hex ⟨x, hx, hc⟩
      show entryLeak t pi n (unpinScan hd.pageID hd.dirty s.directory)
      rw [unpinScan_eq_self hmiss]
      exact h
  · rw [if_neg h0]
    exact h

theorem entryLeak_dropHandle_dec {t pi n : Nat} (s : page_manager)
    (hd : pinned_page) (ht : hd.pageID = t)
    (h : entryLeak t pi (n + 1) s.directory) :
    entryLeak t pi n (dropHandle s hd).directory := by
  have hweak : entryLeak t pi n s.directory :=
    ⟨h.1, fun x hx hxt => ⟨(h.2 x hx hxt).1, by
      have := (h.2 x hx hxt).2
      omega⟩⟩
  unfold dropHandle
  by_cases h0 : hd.pageID ≠ 0
  · rw [if_pos h0]
    have hex : ∃ x ∈ s.directory, x.page = hd.pageID := by
      rw [ht]
      have hc1 := h.1
      have hpos : 0 < s.directory.countP (fun e => e.page == t) := by omega
      obtain ⟨x, hx, hpx⟩ := List.countP_pos_iff.mp hpos
      exact ⟨x, hx, by simpa using hpx⟩
    obtain ⟨d1, e, d2, hsp, he, hd1⟩ :=
      exists_first_split (fun x => x.page = hd.pageID) hex
    have he2 : e.page = hd.pageID := he
    show entryLeak t pi n (unpinScan hd.pageID hd.dirty s.directory)
    rw [hsp, unpinScan_split hd1 he2]
    rw [hsp] at h
    constructor
    · rw [@countP_middle_congr (fun y => y.page == t) d1 d2
        { e with dirty := hd.dirty || e.dirty, pinCount := e.pinCount - 1 }
        e rfl]
      exact h.1
    · intro x hx hxt
      rcases List.mem_append.mp hx with h2 | h2
      · have := h.2 x (List.mem_append.mpr (Or.inl h2)) hxt
        exact ⟨this.1, by omega⟩
      · rcases List.mem_cons.mp h2 with h2 | h2
        · subst h2
          have het : e.page = t := by rw [he2, ht]
          have hme := h.2 e (by simp) het
          show e.poolIndex = pi ∧ 1 + n ≤ e.pinCount - 1
          exact ⟨hme.1, by omega⟩
        · have := h.2 x (by simp [h2]) hxt
          exact ⟨this.1, by omega⟩
  · rw [if_neg h0]
    exact hweak

theorem entryLeak_newPinnedPage (P : page_interface) (t pi n : Nat)
    (s : page_manager) (halloc : ∀ sz, P.alloc_page sz ≠ .ok t)
    (h : entryLeak t pi n s.directory) :
    entryLeak t pi n ((newPinnedPage P s).2.1).directory := by
  by_cases hfree : ∃ x ∈ s.directory, x.pinCount = 0
  · obtain ⟨d1, e, d2, hsp, hpin, hd1⟩ :=
      exists_first_split (fun x => x.pinCount = 0) hfree
    have hpin2 : e.pinCount = 0 := hpin
    have het : e.page ≠ t := by
      intro hc
      have := h.2 e (by rw [hsp]; simp) hc
      omega
    by_cases hwb : e.dirty = true →
        P.write_page e.page (frameFn s.pool s.pageSize e.poolIndex)
          = error.None
    · rw [newPinnedPage_eq P s d1 e d2 hsp hd1 hpin hwb]
      rcases halc : P.alloc_page s.pageSize with err | pid
      · show entryLeak t pi n (d1 ++ ({ e with
            pinCount := 1
            dirty := false } : directory_entry) :: d2)
        rw [hsp] at h
        exact entryLeak_stamp h rfl (by show e.page ≠ t; exact het)
      · have hpt : pid ≠ t := by
          intro hc
          rw [hc] at halc
          exact halloc s.pageSize halc
        show entryLeak t pi n (rotateToEnd
          (d1 ++ (⟨true, pid, e.poolIndex, 1⟩ : directory_entry) :: d2)
          d1.length)
        refine entryLeak_of_perm (rotateToEnd_perm _ _ ?_) ?_
        · rw [List.length_append, List.length_cons]
          omega
        · rw [hsp] at h
          refine entryLeak_stamp h ?_ hpt
          show (pid == t) = (e.page == t)
          rw [beq_eq_false_iff_ne.mpr hpt, beq_eq_false_iff_ne.mpr het]
    · have hd : e.dirty = true := by
        by_contra hc
        exact hwb (fun hcc => absurd hcc hc)
      have hw : P.write_page e.page (frameFn s.pool s.pageSize e.poolIndex)
          ≠ error.None := fun hc => hwb (fun _ => hc)
      have heq : newPinnedPage P s
          = (.error (P.write_page e.page
              (frameFn s.pool s.pageSize e.poolIndex)), s,
            [.writeEv e.page]) := by
        unfold newPinnedPage makeDirEntry
        rw [hsp, mkde_err_split P s.pageSize s.pool hd1 hpin hd hw]
      rw [heq]
      exact h
  · have hall : ∀ x ∈ s.directory, x.pinCount ≠ 0 := by
      intro x hx hc
      exact hfree ⟨x, hx, hc⟩
    have heq : newPinnedPage P s = (.error .None, s, []) := by
      unfold newPinnedPage makeDirEntry
      rw [mkde_full P s.pageSize s.pool hall]
    rw [heq]
    exact h

theorem entryLeak_flushPage (P : page_interface) (t pi n : Nat)
    (s : page_manager) (id : Nat) (h : entryLeak t pi n s.directory) :
    entryLeak t pi n ((flushPage P s id).2.1).directory := by
  show entryLeak t pi n (flushScan P s.pageSize s.pool id s.directory).2.1
  exact entryLeak_of_map (flushScan_map P s.pageSize s.pool id s.directory) h

theorem entryLeak_flushFreePages (P : page_interface) (t pi n : Nat)
    (s : page_manager) (h : entryLeak t pi n s.directory) :
    entryLeak t pi n ((flushFreePages P s).2.1).directory := by
  show entryLeak t pi n (ffpScan P s.pageSize s.pool s.directory).2.1
  exact entryLeak_of_map (ffpScan_map P s.pageSize s.pool s.directory) h

theorem entryLeak_addRecordLoop (P : page_interface) (t pi : Nat)
    (data : List Nat) (recordSize : Nat)
    (halloc : ∀ sz, P.alloc_page sz ≠ .ok t) :
    ∀ (fuel : Nat) (n : Nat) (s : page_manager) (page : pinned_page)
      (pageid : Nat) (acc : List io_event),
      entryLeak t pi (n + (if page.pageID = t then 1 else 0)) s.directory →
    ∀ r s1 tr, addRecordLoop P data recordSize fuel s page pageid acc
      = some (r, s1, tr) → entryLeak t pi n s1.directory := by
  intro fuel
  induction fuel with
  | zero =>
    intro n s page pageid acc _ r s1 tr hl
    simp [addRecordLoop] at hl
  | succ fuel ih =>
    intro n s page pageid acc h r s1 tr hl
    have hdropcur : ∀ (m : Nat) (s2 : page_manager) (pg2 : pinned_page),
        pg2.pageID = page.pageID →
        entryLeak t pi (m + (if page.pageID = t then 1 else 0))
          s2.directory →
        entryLeak t pi m (dropHandle s2 pg2).directory := by
      intro m s2 pg2 hpg hh
      by_cases hbt : page.pageID = t
      · rw [if_pos hbt] at hh
        exact entryLeak_dropHandle_dec s2 pg2 (by rw [hpg, hbt]) hh
      · rw [if_neg hbt] at hh
        exact entryLeak_dropHandle_ne s2 pg2 (by rw [hpg]; exact hbt) hh
    by_cases hg : (readFooter s.pool
        (page.base + page.size - footerSize)).freeSpace
        < recordSize + szSize
    · by_cases hnp : (readFooter s.pool
          (page.base + page.size - footerSize)).next_page = 0
      · rcases hnew : newPinnedPage P s with ⟨res, s2, tr1⟩
        have hz2 : entryLeak t pi (n + (if page.pageID = t then 1 else 0))
            s2.directory := by
          have := entryLeak_newPinnedPage P t pi _ s halloc h
          rw [hnew] at this
          exact this
        rcases res with err | newPg
        · have hred : addRecordLoop P data recordSize (fuel + 1) s page
              pageid acc
              = some (.error err, dropHandle s2 page, acc ++ tr1) := by
            simp only [addRecordLoop]
            rw [if_pos hg, if_pos hnp, hnew]
          rw [hred] at hl
          simp only [Option.some.injEq, Prod.mk.injEq] at hl
          rw [← hl.2.1]
          exact hdropcur n s2 page rfl hz2
        · have hnewID : newPg.pageID ≠ t := by
            have halcP := newPinnedPage_ok_pageID P s newPg (by rw [hnew])
            intro hc
            rw [hc] at halcP
            exact halloc s.pageSize halcP
          have hred : addRecordLoop P data recordSize (fuel + 1) s page
              pageid acc
              = addRecordLoop P data recordSize fuel
                (dropHandle { s2 with
                  pool := writeFooter s2.pool
                    (page.base + page.size - footerSize)
                    { readFooter s.pool (page.base + page.size - footerSize)
                      with next_page := newPg.pageID } } page)
                newPg newPg.pageID (acc ++ tr1) := by
            simp only [addRecordLoop]
            rw [if_pos hg, if_pos hnp, hnew]
          rw [hred] at hl
          refine ih n _ newPg newPg.pageID (acc ++ tr1) ?_ r s1 tr hl
          rw [if_neg hnewID]
          exact hdropcur n _ page rfl hz2
      · by_cases hnt : (readFooter s.pool
            (page.base + page.size - footerSize)).next_page = t
        · obtain ⟨hd2, s2, hpe, hdid, hz2⟩ := entryLeak_pinPage_hit_t P t pi
            (n + (if page.pageID = t then 1 else 0)) s h
          have hred : addRecordLoop P data recordSize (fuel + 1) s page
              pageid acc
              = addRecordLoop P data recordSize fuel (dropHandle s2 page)
                hd2 t (acc ++ []) := by
            simp only [addRecordLoop]
            rw [if_pos hg, if_neg hnp, hnt, hpe]
          rw [hred] at hl
          have hz3 : entryLeak t pi (n + 1) (dropHandle s2 page).directory := by
            by_cases hbt : page.pageID = t
            · rw [if_pos hbt] at hz2
              exact entryLeak_dropHandle_dec s2 page hbt hz2
            · rw [if_neg hbt] at hz2
              exact entryLeak_dropHandle_ne s2 page hbt hz2
          refine ih n (dropHandle s2 page) hd2 t (acc ++ []) ?_ r s1 tr hl
          rw [if_pos hdid]
          exact hz3
        · rcases hpin : pinPage P s (readFooter s.pool
              (page.base + page.size - footerSize)).next_page
            with ⟨res, s2, tr1⟩
          have hz2 : entryLeak t pi
              (n + (if page.pageID = t then 1 else 0)) s2.directory := by
            have := entryLeak_pinPage_ne P t pi _ s
              (readFooter s.pool
                (page.base + page.size - footerSize)).next_page hnt h
            rw [hpin] at this
            exact this
          rcases res with err | nextPg
          · have hred : addRecordLoop P data recordSize (fuel + 1) s page
                pageid acc
                = some (.error err, dropHandle s2 page, acc ++ tr1) := by
              simp only [addRecordLoop]
              rw [if_pos hg, if_neg hnp, hpin]
            rw [hred] at hl
            simp only [Option.some.injEq, Prod.mk.injEq] at hl
            rw [← hl.2.1]
            exact hdropcur n s2 page rfl hz2
          · have hnextID : nextPg.pageID ≠ t := by
              have := pinPage_ok_pageID P s (readFooter s.pool
                (page.base + page.size - footerSize)).next_page nextPg
                (by rw [hpin])
              rw [this]
              exact hnt
            have hred : addRecordLoop P data recordSize (fuel + 1) s page
                pageid acc
                = addRecordLoop P data recordSize fuel (dropHandle s2 page)
                  nextPg (readFooter s.pool
                    (page.base + page.size - footerSize)).next_page
                  (acc ++ tr1) := by
              simp only [addRecordLoop]
              rw [if_pos hg, if_neg hnp, hpin]
            rw [hred] at hl
            refine ih n (dropHandle s2 page) nextPg _ (acc ++ tr1) ?_
              r s1 tr hl
            rw [if_neg hnextID]
            exact hdropcur n s2 page rfl hz2
    · have hred : addRecordLoop P data recordSize (fuel + 1) s page
          pageid acc
          = some (.ok (addRecordOnPage s.pool page pageid data recordSize).2,
            dropHandle { s with
              pool := (addRecordOnPage s.pool page pageid data
                recordSize).1 } { page with dirty := true }, acc) := by
        simp only [addRecordLoop]
        rw [if_neg hg]
      rw [hred] at hl
      simp only [Option.some.injEq, Prod.mk.injEq] at hl
      rw [← hl.2.1]
      exact hdropcur n _ { page with dirty := true } rfl h

theorem entryLeak_add_record (P : page_interface) (t pi n : Nat)
    (s : page_manager) (pageid : Nat) (data : List Nat)
    (recordSize fuel : Nat)
    (halloc : ∀ sz, P.alloc_page sz ≠ .ok t)
    (h : entryLeak t pi n s.directory) :
    ∀ r s1 tr, add_record P s pageid data recordSize fuel
      = some (r, s1, tr) → entryLeak t pi n s1.directory := by
  intro r s1 tr hl
  unfold add_record at hl
  by_cases hg : page_data_size s - szSize < recordSize
  · rw [if_pos hg] at hl
    simp only [Option.some.injEq, Prod.mk.injEq] at hl
    rw [← hl.2.1]
    exact h
  · rw [if_neg hg] at hl
    by_cases hpt : pageid = t
    · subst hpt
      obtain ⟨hd2, s2, hpe, hdid, hz2⟩ :=
        entryLeak_pinPage_hit_t P pageid pi n s h
      rw [hpe] at hl
      refine entryLeak_addRecordLoop P pageid pi data recordSize halloc
        fuel n s2 hd2 pageid [] ?_ r s1 tr hl
      rw [if_pos hdid]
      exact hz2
    · rcases hpin : pinPage P s pageid with ⟨res, s2, tr1⟩
      rw [hpin] at hl
      have hz2 : entryLeak t pi n s2.directory := by
        have := entryLeak_pinPage_ne P t pi n s pageid hpt h
        rw [hpin] at this
        exact this
      rcases res with err | page
      · simp only [Option.some.injEq, Prod.mk.injEq] at hl
        rw [← hl.2.1]
        exact hz2
      · have hpg : page.pageID = pageid :=
          pinPage_ok_pageID P s pageid page (by rw [hpin])
        refine entryLeak_addRecordLoop P t pi data recordSize halloc
          fuel n s2 page pageid tr1 ?_ r s1 tr hl
        rw [if_neg (by rw [hpg]; exact hpt)]
        exact hz2

theorem leakedPinned_step (P : page_interface) (t pi : Nat)
    (halloc : ∀ sz, P.alloc_page sz ≠ .ok t) (c : config) (o : op)
    (h : leakedPinned t pi c) : leakedPinned t pi (step P c o) := by
  obtain ⟨s, hs⟩ := c
  cases o with
  | pinOp id =>
    show leakedPinned t pi (match pinPage P s id with
      | (.ok h, s1, _) => (s1, h :: hs)
      | (.error _, s1, _) => (s1, hs))
    by_cases hid : id = t
    · subst hid
      obtain ⟨hd2, s2, hpe, hdid, hz2⟩ :=
        entryLeak_pinPage_hit_t P id pi (cnt id hs) s h
      rw [hpe]
      show entryLeak id pi (cnt id (hd2 :: hs)) s2.directory
      have hcnt : cnt id (hd2 :: hs) = cnt id hs + 1 := by
        simp [cnt, List.countP_cons, hdid]
      rw [hcnt]
      exact hz2
    · have hz := entryLeak_pinPage_ne P t pi (cnt t hs) s id hid h
      rcases hp : pinPage P s id with ⟨res, s1, tr⟩
      rw [hp] at hz
      rcases res with err | hdl
      · exact hz
      · show entryLeak t pi (cnt t (hdl :: hs)) s1.directory
        have hdlid : hdl.pageID = id :=
          pinPage_ok_pageID P s id hdl (by rw [hp])
        have hcnt : cnt t (hdl :: hs) = cnt t hs := by
          simp [cnt, List.countP_cons, hdlid, hid]
        rw [hcnt]
        exact hz
  | dropOp k =>
    show leakedPinned t pi (match hs.get? k with
      | some hd => (dropHandle s hd, hs.eraseIdx k)
      | none => (s, hs))
    rcases hgk : hs.get? k with _ | hd
    · exact h
    · obtain ⟨u, v, hsplit, hlen, herase⟩ := get_some_split k hs hd hgk
      show entryLeak t pi (cnt t (hs.eraseIdx k)) (dropHandle s hd).directory
      rw [herase]
      have h2 : entryLeak t pi (cnt t hs) s.directory := h
      by_cases hdt : hd.pageID = t
      · have hcnt : cnt t hs = cnt t (u ++ v) + 1 := by
          rw [hsplit]
          simp [cnt, List.countP_append, List.countP_cons, hdt]
          omega
        rw [hcnt] at h2
        exact entryLeak_dropHandle_dec s hd hdt h2
      · have hcnt : cnt t hs = cnt t (u ++ v) := by
          rw [hsplit]
          simp [cnt, List.countP_append, List.countP_cons, hdt]
        rw [hcnt] at h2
        exact entryLeak_dropHandle_ne s hd hdt h2
  | flushOp id => exact entryLeak_flushPage P t pi (cnt t hs) s id h
  | flushAllOp => exact entryLeak_flushFreePages P t pi (cnt t hs) s h
  | newPageOp =>
    show leakedPinned t pi (match newPinnedPage P s with
      | (.ok h, s1, _) => (s1, h :: hs)
      | (.error _, s1, _) => (s1, hs))
    have hz := entryLeak_newPinnedPage P t pi (cnt t hs) s halloc h
    rcases hp : newPinnedPage P s with ⟨res, s1, tr⟩
    rw [hp] at hz
    rcases res with err | hdl
    · exact hz
    · show entryLeak t pi (cnt t (hdl :: hs)) s1.directory
      have halcID := newPinnedPage_ok_pageID P s hdl (by rw [hp])
      have hne : hdl.pageID ≠ t := by
        intro hc
        rw [hc] at halcID
        exact halloc s.pageSize halcID
      have hcnt : cnt t (hdl :: hs) = cnt t hs := by
        simp [cnt, List.countP_cons, hne]
      rw [hcnt]
      exact hz
  | addRecOp pageid data recordSize fuel =>
    show leakedPinned t pi
      (match add_record P s pageid data recordSize fuel with
      | some (_, s1, _) => (s1, hs)
      | none => (s, hs))
    rcases ha : add_record P s pageid data recordSize fuel
      with _ | ⟨r, s1, tr⟩
    · exact h
    · exact entryLeak_add_record P t pi (cnt t hs) s pageid data
        recordSize fuel halloc h r s1 tr ha

theorem leakedPinned_steps (P : page_interface) (t pi : Nat)
    (halloc : ∀ sz, P.alloc_page sz ≠ .ok t) :
    ∀ (ops : List op) (c : config), leakedPinned t pi c →
    leakedPinned t pi (steps P c ops) := by
  intro ops
  induction ops with
  | nil => intro c h; exact h
  | cons o rest ih =>
    intro c h
    exact ih (step P c o) (leakedPinned_step P t pi halloc c o h)

/-- A Block Provider whose reads fail, whose writes succeed and whose
allocations fail, for exercising the pin-miss read-error path. -/
def c9Prov : page_interface :=
  ⟨fun _ s => (.Some, s), fun _ _ => .None, fun _ => .error .Some,
   fun _ => .None⟩

/-- A freshly constructed manager with one frame of 27 bytes. -/
def c9M : page_manager := mkManager 1 27 (fun _ => 0)

/-- C9: when pin_page(id) misses (no directory entry carries id), the
first free entry e of the directory is reserved (after a clean
write-back if it was dirty) and the Block Provider's read_page fails,
pin_page returns the read error verbatim and leaves the reserved entry
stamped with page_id = id and pin_count = 1 instead of rolling it back:
the directory afterwards is d1 ++ {false, id, e.poolIndex, 1} :: d2.
make_dir_entry only ever reserves an entry whose pin count is zero, and
as long as the caller holds no handle onto page id, after ANY further
sequence of operations (by a provider that never allocates page id)
exactly one directory entry carries page id, still on frame
e.poolIndex, with pin count at least one — so that frame is never again
selectable by make_dir_entry: it is leaked until the manager dies. -/
theorem C9_pin_miss_read_error_leak (P : page_interface)
    (s : page_manager) (id : Nat) (d1 : List directory_entry)
    (e : directory_entry) (d2 : List directory_entry)
    (hmiss : ∀ x ∈ s.directory, x.page ≠ id)
    (hsp : s.directory = d1 ++ e :: d2)
    (hd1 : ∀ x ∈ d1, x.pinCount ≠ 0) (hpin : e.pinCount = 0)
    (hwb : e.dirty = true →
      P.write_page e.page (frameFn s.pool s.pageSize e.poolIndex)
        = error.None)
    (hrd : (P.read_page id
      (frameFn s.pool s.pageSize e.poolIndex)).1 ≠ error.None)
    (halloc : ∀ sz, P.alloc_page sz ≠ .ok id) :
    pinPage P s id
      = (.error (P.read_page id
          (frameFn s.pool s.pageSize e.poolIndex)).1,
        { s with
          directory :=
            d1 ++ (⟨false, id, e.poolIndex, 1⟩ : directory_entry) :: d2
          pool := blit s.pool (s.pageSize * e.poolIndex)
            (P.read_page id (frameFn s.pool s.pageSize e.poolIndex)).2
            s.pageSize },
        (if e.dirty then [.writeEv e.page] else []) ++ [.readEv id]) ∧
    (∀ (pageSize2 : Nat) (pool2 : Store) (dir : List directory_entry)
      (i : Nat) (dir2 : List directory_entry) (tr2 : List io_event),
      mkde P pageSize2 pool2 dir = (.ok (i, dir2), tr2) →
      (dir.getD i ⟨false, 0, 0, 0⟩).pinCount = 0) ∧
    (∀ (ops : List op) (hs : List pinned_page), cnt id hs = 0 →
      (steps P ((pinPage P s id).2.1, hs) ops).1.directory.countP
          (fun x => x.page == id) = 1 ∧
      ∀ e2 ∈ (steps P ((pinPage P s id).2.1, hs) ops).1.directory,
        e2.page = id → e2.poolIndex = e.poolIndex ∧ 1 ≤ e2.pinCount) := by
  have hl := loadPage_eq P s id d1 e d2 hsp hd1 hpin hwb
  rw [if_neg hrd] at hl
  have hmain : pinPage P s id
      = (.error (P.read_page id
          (frameFn s.pool s.pageSize e.poolIndex)).1,
        { s with
          directory :=
            d1 ++ (⟨false, id, e.poolIndex, 1⟩ : directory_entry) :: d2
          pool := blit s.pool (s.pageSize * e.poolIndex)
            (P.read_page id (frameFn s.pool s.pageSize e.poolIndex)).2
            s.pageSize },
        (if e.dirty then [.writeEv e.page] else []) ++ [.readEv id]) := by
    unfold pinPage
    rw [scanPin_eq_none hmiss, hl]
  refine ⟨hmain, ?_, ?_⟩
  · intro pageSize2 pool2 dir i dir2 tr2 hmk
    obtain ⟨g1, f, g2, hgsp, hgi, _, hfpin, _, _⟩ :=
      mkde_ok_inv P pageSize2 pool2 hmk
    rw [hgsp, hgi, getD_append_len]
    exact hfpin
  · intro ops hs hcnt0
    have hd1c : d1.countP (fun x => x.page == id) = 0 :=
      List.countP_eq_zero.mpr (fun x hx => by
        simpa using hmiss x (by
          rw [hsp]
          exact List.mem_append.mpr (Or.inl hx)))
    have hd2c : d2.countP (fun x => x.page == id) = 0 :=
      List.countP_eq_zero.mpr (fun x hx => by
        simpa using hmiss x (by
          rw [hsp]
          simp [hx]))
    have hinv : leakedPinned id e.poolIndex ((pinPage P s id).2.1, hs) := by
      show entryLeak id e.poolIndex (cnt id hs)
        ((pinPage P s id).2.1).directory
      rw [hcnt0, hmain]
      show entryLeak id e.poolIndex 0
        (d1 ++ (⟨false, id, e.poolIndex, 1⟩ : directory_entry) :: d2)
      constructor
      · simp [List.countP_append, List.countP_cons, hd1c, hd2c]
      · intro x hx hxt
        rcases List.mem_append.mp hx with h2 | h2
        · exact absurd hxt (hmiss x (by
            rw [hsp]
            exact List.mem_append.mpr (Or.inl h2)))
        · rcases List.mem_cons.mp h2 with h2 | h2
          · subst h2
            exact ⟨rfl, Nat.le_refl 1⟩
          · exact absurd hxt (hmiss x (by
              rw [hsp]
              simp [h2]))
    have hfin := leakedPinned_steps P id e.poolIndex halloc ops
      ((pinPage P s id).2.1, hs) hinv
    refine ⟨hfin.1, ?_⟩
    intro e2 he2 he2t
    have := hfin.2 e2 he2 he2t
    exact ⟨this.1, by omega⟩

/-- C9 at a concrete input: a fresh one-frame manager, pin_page(5) with
a failing read. -/
theorem C9_pin_miss_read_error_leak_witness :
    (∀ x ∈ c9M.directory, x.page ≠ 5) ∧
    c9M.directory = [] ++ (⟨false, 0, 0, 0⟩ : directory_entry) :: [] ∧
    (∀ x ∈ ([] : List directory_entry), x.pinCount ≠ 0) ∧
    (⟨false, 0, 0, 0⟩ : directory_entry).pinCount = 0 ∧
    (∀ sz, c9Prov.alloc_page sz ≠ .ok 5) ∧
    (pinPage c9Prov c9M 5
      = (.error .Some,
        { c9M with
          directory := [(⟨false, 5, 0, 1⟩ : directory_entry)]
          pool := blit c9M.pool 0
            (frameFn c9M.pool c9M.pageSize 0) c9M.pageSize },
        [.readEv 5]) ∧
    (∀ (pageSize2 : Nat) (pool2 : Store) (dir : List directory_entry)
      (i : Nat) (dir2 : List directory_entry) (tr2 : List io_event),
      mkde c9Prov pageSize2 pool2 dir = (.ok (i, dir2), tr2) →
      (dir.getD i ⟨false, 0, 0, 0⟩).pinCount = 0) ∧
    (∀ (ops : List op) (hs : List pinned_page), cnt 5 hs = 0 →
      (steps c9Prov ((pinPage c9Prov c9M 5).2.1, hs) ops).1.directory.countP
          (fun x => x.page == 5) = 1 ∧
      ∀ e2 ∈ (steps c9Prov ((pinPage c9Prov c9M 5).2.1, hs)
          ops).1.directory,
        e2.page = 5 → e2.poolIndex = 0 ∧ 1 ≤ e2.pinCount)) :=
  ⟨by decide, rfl, by simp, rfl, by intro sz h; simp [c9Prov] at h,
    C9_pin_miss_read_error_leak c9Prov c9M 5 []
      ⟨false, 0, 0, 0⟩ [] (by decide) rfl (by simp) rfl (fun _ => rfl)
      (by decide) (by intro sz h; simp [c9Prov] at h)⟩

/-- A Block Provider for exercising pin_page(0) on a fresh manager; no
callback of it is ever reached by that pin. -/
def c10Prov : page_interface :=
  ⟨fun _ s => (.None, s), fun _ _ => .None, fun _ => .ok 1,
   fun _ => .None⟩

/-- A freshly constructed manager with two frames of 27 bytes. -/
def c10M : page_manager := mkManager 2 27 (fun _ => 0)

/-- The first (never-used) directory entry of c10M. -/
def c10E : directory_entry := ⟨false, 0, 0, 0⟩

/-- The rest of c10M's directory after its first entry. -/
def c10D2 : List directory_entry := [⟨false, 0, 1, 0⟩]

/-- C10: whenever the directory holds a never-used entry (page id 0) and
the first entry whose page id matches the requested id 0 is such an
entry e, pin_page(0) succeeds without invoking any Block Provider
callback (empty I/O trace): the scan matches e because its page id
equals 0, increments its pin count, and returns a handle with id 0 onto
e's uninitialised frame.  Dropping a handle whose id is 0 never calls
unpin_page on any manager state.  Consequently, when e is the only
directory entry on its frame, after the pin and ANY subsequent sequence
of caller operations the entry on that frame still has page id 0 and
pin count at least one: the frame is never evictable again. -/
theorem C10_pin_zero_leak (P : page_interface) (s : page_manager)
    (d1 : List directory_entry) (e : directory_entry)
    (d2 : List directory_entry)
    (hsp : s.directory = d1 ++ e :: d2)
    (hd1 : ∀ x ∈ d1, x.page ≠ 0) (he : e.page = 0)
    (huniq : ∀ x ∈ d1 ++ d2, x.poolIndex ≠ e.poolIndex) :
    pinPage P s 0
      = (.ok ⟨0, s.pageSize * e.poolIndex, s.pageSize, false⟩,
        { s with directory := d1 ++ { e with
            pinCount := e.pinCount + 1 } :: d2 }, []) ∧
    (∀ t : page_manager,
      dropHandle t ⟨0, s.pageSize * e.poolIndex, s.pageSize, false⟩ = t) ∧
    (∀ (ops : List op) (hs : List pinned_page),
      ∀ e2 ∈ (steps P ((pinPage P s 0).2.1, hs) ops).1.directory,
        e2.poolIndex = e.poolIndex → e2.page = 0 ∧ 1 ≤ e2.pinCount) := by
  have hmain := pinPage_hit_eq P s 0 d1 e d2 hsp hd1 he
  refine ⟨hmain, ?_, ?_⟩
  · intro t
    unfold dropHandle
    simp
  · intro ops hs
    have hz1 : zeroPinned e.poolIndex (pinPage P s 0).2.1 := by
      rw [hmain]
      intro e2 he2 hpi
      rcases List.mem_append.mp he2 with h2 | h2
      · exact absurd hpi (huniq e2 (List.mem_append.mpr (Or.inl h2)))
      · rcases List.mem_cons.mp h2 with h2 | h2
        · subst h2
          exact ⟨he, Nat.le_add_left 1 e.pinCount⟩
        · exact absurd hpi (huniq e2 (List.mem_append.mpr (Or.inr h2)))
    exact zeroPinned_steps P e.poolIndex ops ((pinPage P s 0).2.1, hs) hz1

/-- C10 at a concrete input: the fresh two-frame manager c10M. -/
theorem C10_pin_zero_leak_witness :
    c10M.directory = [] ++ c10E :: c10D2 ∧
    (∀ x ∈ ([] : List directory_entry), x.page ≠ 0) ∧
    c10E.page = 0 ∧
    (∀ x ∈ [] ++ c10D2, x.poolIndex ≠ c10E.poolIndex) ∧
    (pinPage c10Prov c10M 0
      = (.ok ⟨0, 0, 27, false⟩,
        { c10M with
          directory := [⟨false, 0, 0, 1⟩, ⟨false, 0, 1, 0⟩] }, []) ∧
    (∀ t : page_manager, dropHandle t ⟨0, 0, 27, false⟩ = t) ∧
    (∀ (ops : List op) (hs : List pinned_page),
      ∀ e2 ∈ (steps c10Prov ((pinPage c10Prov c10M 0).2.1, hs)
          ops).1.directory,
        e2.poolIndex = 0 → e2.page = 0 ∧ 1 ≤ e2.pinCount)) :=
  ⟨rfl, by simp, rfl, by decide,
    C10_pin_zero_leak c10Prov c10M [] c10E c10D2 rfl (by simp) rfl
      (by decide)⟩

end osdb
